import Mathlib

/-!
Verification of the "testy" VS Code C# test extension.

This file shallowly embeds the test-tree synchronization & execution engine:

* the pattern matchers used to extract test methods from C# source text
  (`findTestMethods`, `extractTestMethods`, `getTestItems`),
* the failure-message extraction of `runDotnetTest` / `executeDotnetTest`,
* the project locator `findProjectForTest` / `CSharpUtils.findProjectFile`,
* the run and debug handlers (`runHandler`, `debugHandler`),
* the workspace scanner (`Workspace.scanFolder`),
* the debounced trigger (`triggerTestRun` / `debounce`),
* the test-file naming predicates (`checkAndAddTestFile`, `isLikelyTestFile`).

JavaScript regular expressions are embedded as explicit ordered-backtracking
matchers over `List Char`: greedy pieces try the longest alternative first,
lazy pieces the shortest, alternations left to right, and a whole-string
search returns the leftmost position at which the anchored matcher succeeds.
This reproduces the JS engine's ordered depth-first search for the concrete
patterns appearing in the source.
-/

namespace Testy

/-! ## Character classes of the JS regex dialect -/

/-- JS regex `\s`: whitespace (the WhiteSpace and LineTerminator productions). -/
def isWs (c : Char) : Bool :=
  c = ' ' || c = '\t' || c = '\n' || c = '\r' ||
  c = '\x0b' || c = '\x0c' || c = '\u00A0' || c = '\u1680' ||
  ('\u2000' ≤ c && c ≤ '\u200A') || c = '\u2028' || c = '\u2029' ||
  c = '\u202F' || c = '\u205F' || c = '\u3000' || c = '\uFEFF'

/-- JS regex `.` without the `s` flag: any character except a line terminator. -/
def isDot (c : Char) : Bool :=
  !(c = '\n' || c = '\r' || c = '\u2028' || c = '\u2029')

/-- JS regex `.` with the `s` flag: any character. -/
def isDotAll (_c : Char) : Bool := true

/-- JS regex `\w`: ASCII letters, digits and underscore. -/
def isWordChar (c : Char) : Bool :=
  ('a' ≤ c && c ≤ 'z') || ('A' ≤ c && c ≤ 'Z') || ('0' ≤ c && c ≤ '9') || c = '_'

/-- JS regex `[^{]`: any character other than an opening brace. -/
def isNotBrace (c : Char) : Bool := !(c = '\x7b')

/-! ## String helpers (embeddings of the JS string operations used) -/

/-- Does the list start with the given word?  (`String.prototype.startsWith`.) -/
def beginsWith : List Char → List Char → Bool
  | _, [] => true
  | [], _ :: _ => false
  | c :: cs, d :: ds => c == d && beginsWith cs ds

/-- Does the list contain the given word as a contiguous part?
(`String.prototype.includes`.) -/
def containsSub : List Char → List Char → Bool
  | [], needle => beginsWith [] needle
  | c :: cs, needle => beginsWith (c :: cs) needle || containsSub cs needle

/-- Does the list end with the given word?  (`String.prototype.endsWith`,
also regex `...$` anchoring.) -/
def endsWithList (hay needle : List Char) : Bool :=
  decide (needle.length ≤ hay.length) && beginsWith (hay.drop (hay.length - needle.length)) needle

/-- `String.prototype.split('\n')`: split at every newline, keeping empty
pieces, so the result is always non-empty. -/
def splitLinesAux : List Char → List Char → List (List Char)
  | acc, [] => [acc.reverse]
  | acc, c :: cs =>
    if c = '\n' then acc.reverse :: splitLinesAux [] cs
    else splitLinesAux (c :: acc) cs

/-- All lines of a text, as produced by `content.split('\n')`. -/
def splitLines (s : List Char) : List (List Char) := splitLinesAux [] s

/-! ## Ordered-backtracking matcher combinators

Each combinator is continuation-passing: it consumes part of the input and
calls the continuation `k` on every admissible remainder, in exactly the
order the JS backtracking engine would, returning the first success. -/

/-- Match a literal word, then continue. -/
def litK (lit : List Char) (k : List Char → Option α) (s : List Char) : Option α :=
  if beginsWith s lit then k (s.drop lit.length) else none

/-- Greedy `p*`: consume as many `p`-characters as possible, backtracking to
shorter runs when the continuation fails. -/
def starG (p : Char → Bool) (k : List Char → Option α) : List Char → Option α
  | [] => k []
  | c :: cs =>
    if p c then
      match starG p k cs with
      | some r => some r
      | none => k (c :: cs)
    else k (c :: cs)

/-- Greedy `p+`: one mandatory `p`-character, then greedy `p*`. -/
def plusG (p : Char → Bool) (k : List Char → Option α) : List Char → Option α
  | [] => none
  | c :: cs => if p c then starG p k cs else none

/-- Lazy `p*?`: try the continuation on the shortest remainder first,
extending the consumed run one `p`-character at a time. -/
def starL (p : Char → Bool) (k : List Char → Option α) : List Char → Option α
  | [] => k []
  | c :: cs =>
    match k (c :: cs) with
    | some r => some r
    | none => if p c then starL p k cs else none

/-- Lazy capturing `(p*?)`: like `starL` but passes the consumed characters
to the continuation.  `acc` holds them in reverse. -/
def starLCap (p : Char → Bool) (k : List Char → List Char → Option α) :
    List Char → List Char → Option α
  | acc, [] => k acc.reverse []
  | acc, c :: cs =>
    match k acc.reverse (c :: cs) with
    | some r => some r
    | none => if p c then starLCap p k (c :: acc) cs else none

/-- Greedy capturing `(p*)`: longest run first, passing the consumed
characters to the continuation. -/
def starGCap (p : Char → Bool) (k : List Char → List Char → Option α) :
    List Char → List Char → Option α
  | acc, [] => k acc.reverse []
  | acc, c :: cs =>
    if p c then
      match starGCap p k (c :: acc) cs with
      | some r => some r
      | none => k acc.reverse (c :: cs)
    else k acc.reverse (c :: cs)

/-- Greedy capturing `(p+)`. -/
def plusGCap (p : Char → Bool) (k : List Char → List Char → Option α) :
    List Char → Option α
  | [] => none
  | c :: cs => if p c then starGCap p k [c] cs else none

/-- Alternation of literal words, tried left to right; the chosen word is
passed to the continuation. -/
def altK : List (List Char) → (List Char → List Char → Option α) → List Char → Option α
  | [], _, _ => none
  | lit :: lits, k, s =>
    match litK lit (k lit) s with
    | some r => some r
    | none => altK lits k s

/-- Greedy optional literal `(lit)?`: try with the literal first. -/
def optK (lit : List Char) (k : Bool → List Char → Option α) (s : List Char) : Option α :=
  match litK lit (k true) s with
  | some r => some r
  | none => k false s

/-- Leftmost search: run the anchored matcher at each position, left to
right, returning the first success (`String.prototype.match` without `g`). -/
def firstSearch (try' : List Char → Option α) : List Char → Option α
  | [] => try' []
  | c :: cs =>
    match try' (c :: cs) with
    | some r => some r
    | none => firstSearch try' cs

/-! ## `runDotnetTest` / `TestExecutor.executeDotnetTest`: result mapping

Embeds the `close` handler of the spawned `dotnet test` process
(`csharp-test-controller.ts` 893-919 and `TestExecutor.executeDotnetTest`):
exit code 0 resolves `{success: true, message: 'Test passed'}`; otherwise the
message is extracted from the accumulated stdout with
`/Failed\s+(.*?)\s+\[(.*?)\]/`, falling back to `'Test failed'`.
The accumulated stderr is never consulted for the message. -/

/-- Anchored matcher for `Failed\s+(.*?)\s+\[(.*?)\]`, returning capture 1. -/
def tryFailedPattern (s : List Char) : Option (List Char) :=
  litK "Failed".data (fun s1 =>
    plusG isWs (fun s2 =>
      starLCap isDot (fun g1 s3 =>
        plusG isWs (fun s4 =>
          litK "[".data (fun s5 =>
            starLCap isDot (fun _g2 s6 =>
              litK "]".data (fun _s7 => some g1) s6) [] s5) s4) s3) [] s2) s1) s

/-- `stdout.match(/Failed\s+(.*?)\s+\[(.*?)\]/)?.[1]`. -/
def extractFailedName (stdout : String) : Option String :=
  (firstSearch tryFailedPattern stdout.data).map fun g1 => ⟨g1⟩

/-- The `TestRunResult` resolved by the process `close` handler. -/
structure TestRunResult where
  success : Bool
  message : String
  duration : Nat
  deriving Repr, DecidableEq

/-- The `close` handler of the spawned process: `code` is the exit code,
`stdout`/`stderr` the accumulated streams (the handler appends both to the
run output but reads only `stdout` when building the failure message). -/
def dotnetCloseResult (code : Int) (stdout : String) (_stderr : String)
    (duration : Nat) : TestRunResult :=
  if code = 0 then
    { success := true, message := "Test passed", duration := duration }
  else
    match extractFailedName stdout with
    | some name => { success := false, message := "Test failed: " ++ name, duration := duration }
    | none => { success := false, message := "Test failed", duration := duration }

/-! ## The `exec` loop of a global JS regex

`while ((match = re.exec(content)) !== null)` repeatedly finds the leftmost
match at or after `lastIndex` and then sets `lastIndex` to the match end.
We model it in two steps: enumerate every start position with its suffix,
run the anchored matcher on each, and then select matches left to right,
skipping positions that fall inside the previously selected match. -/

/-- Every position of the text paired with the suffix starting there
(including the final empty suffix). -/
def tailsFrom : List Char → Nat → List (Nat × List Char)
  | [], pos => [(pos, [])]
  | c :: cs, pos => (pos, c :: cs) :: tailsFrom cs (pos + 1)

/-- Select matches the way the `exec` loop does: scan candidate positions in
increasing order, keep a match only if it starts at or after the end of the
previously kept match. -/
def execSelect : Nat → List (Nat × Option (Nat × β)) → List (Nat × β)
  | _, [] => []
  | minPos, (_, none) :: rest => execSelect minPos rest
  | minPos, (pos, some (len, cap)) :: rest =>
    if minPos ≤ pos then (pos, cap) :: execSelect (pos + len) rest
    else execSelect minPos rest

/-- All matches of a global regex over a text, with their match indices.
`try'` is the anchored matcher, returning match length and capture. -/
def execAll (try' : List Char → Option (Nat × β)) (content : List Char) :
    List (Nat × β) :=
  execSelect 0 ((tailsFrom content 0).map fun pt => (pt.1, try' pt.2))

/-! ## `findTestMethods` (`csharp-test-controller.ts` 458-506)

Three global regexes are run one after the other over the same file content
and their matches are concatenated (NUnit, then xUnit, then MSTest):

* `/\s*\[Test(Case)?.*?\]\s*\n\s*public\s+void\s+(\w+)/g`
* `/\s*\[(Fact|Theory).*?\]\s*\n\s*public\s+void\s+(\w+)/g`
* `/\s*\[TestMethod.*?\]\s*\n\s*public\s+void\s+(\w+)/g`

For every match, the method name is the `(\w+)` capture and the recorded
line is computed from `match.index` — which is the start of the *leading
whitespace* matched by `\s*`, not necessarily the attribute's own line. -/

/-- Common tail `\s*\n\s*public\s+void\s+(\w+)` of the three patterns,
returning the captured method name and the remainder. -/
def tryDeclTail (s : List Char) : Option (List Char × List Char) :=
  starG isWs (fun s1 =>
    litK "\n".data (fun s2 =>
      starG isWs (fun s3 =>
        litK "public".data (fun s4 =>
          plusG isWs (fun s5 =>
            litK "void".data (fun s6 =>
              plusG isWs (fun s7 =>
                plusGCap isWordChar (fun nm s8 => some (nm, s8)) s7) s6) s5) s4) s3) s2) s1) s

/-- Anchored `\s*\[Test(Case)?.*?\]` followed by the declaration tail. -/
def tryNUnitCore (s : List Char) : Option (List Char × List Char) :=
  starG isWs (fun s1 =>
    litK "[Test".data (fun s2 =>
      optK "Case".data (fun _hasCase s3 =>
        starL isDot (fun s4 =>
          litK "]".data (fun s5 => tryDeclTail s5) s4) s3) s2) s1) s

/-- Anchored `\s*\[(Fact|Theory).*?\]` followed by the declaration tail. -/
def tryXUnitCore (s : List Char) : Option (List Char × List Char) :=
  starG isWs (fun s1 =>
    litK "[".data (fun s2 =>
      altK ["Fact".data, "Theory".data] (fun _attr s3 =>
        starL isDot (fun s4 =>
          litK "]".data (fun s5 => tryDeclTail s5) s4) s3) s2) s1) s

/-- Anchored `\s*\[TestMethod.*?\]` followed by the declaration tail. -/
def tryMSTestCore (s : List Char) : Option (List Char × List Char) :=
  starG isWs (fun s1 =>
    litK "[TestMethod".data (fun s2 =>
      starL isDot (fun s3 =>
        litK "]".data (fun s4 => tryDeclTail s4) s3) s2) s1) s

/-- Match length and captured name of the NUnit pattern. -/
def tryNUnit (s : List Char) : Option (Nat × List Char) :=
  (tryNUnitCore s).map fun r => (s.length - r.2.length, r.1)

/-- Match length and captured name of the xUnit pattern. -/
def tryXUnit (s : List Char) : Option (Nat × List Char) :=
  (tryXUnitCore s).map fun r => (s.length - r.2.length, r.1)

/-- Match length and captured name of the MSTest pattern. -/
def tryMSTest (s : List Char) : Option (Nat × List Char) :=
  (tryMSTestCore s).map fun r => (s.length - r.2.length, r.1)

/-- The line-number loop of `findTestMethods`: walk the lines accumulating
`lines[i].length + 1`, returning the first `i` whose accumulated end exceeds
`matchStart` (the declared fallback is line 0). -/
def lineForAux : List (List Char) → Nat → Nat → Nat → Nat
  | [], _, _, _ => 0
  | l :: ls, i, cum, matchStart =>
    if cum + l.length + 1 > matchStart then i
    else lineForAux ls (i + 1) (cum + l.length + 1) matchStart

/-- Line number recorded for a match starting at `matchStart`. -/
def lineFor (lines : List (List Char)) (matchStart : Nat) : Nat :=
  lineForAux lines 0 0 matchStart

/-- A leaf produced by `findTestMethods`: method name plus the recorded
(0-based) start line of its range. -/
structure TestLeaf where
  name : String
  line : Nat
  deriving Repr, DecidableEq

/-- The raw matches of `findTestMethods`, in push order: all matches of the
NUnit pattern, then all of the xUnit pattern, then all of the MSTest
pattern, each with its match index. -/
def findTestMethodsMatches (content : List Char) : List (Nat × List Char) :=
  execAll tryNUnit content ++ execAll tryXUnit content ++ execAll tryMSTest content

/-- `findTestMethods`: every match becomes a leaf with the captured method
name (`match[2] || match[1]`) and the line computed from `match.index`. -/
def findTestMethods (content : String) : List TestLeaf :=
  (findTestMethodsMatches content.data).map fun m =>
    { name := ⟨m.2⟩, line := lineFor (splitLines content.data) m.1 }

/-! ## `CSharpUtils.extractTestMethods` (`utils/csharp-utils.ts`)

A single global regex with the `s` flag:
`/\[\s*(Fact|Theory|Test|TestMethod)\s*\].*?public.*?(?:void|async Task)\s+(\w+)/gs`;
each match yields `{name, attribute, position}` with
`position.line = positionAt(match.index).line` (the true line of the `[`). -/

/-- Anchored matcher for the `extractTestMethods` pattern, returning the
attribute capture, the name capture and the remainder. -/
def tryUtilCore (s : List Char) : Option ((List Char × List Char) × List Char) :=
  litK "[".data (fun s1 =>
    starG isWs (fun s2 =>
      altK ["Fact".data, "Theory".data, "Test".data, "TestMethod".data] (fun attr s3 =>
        starG isWs (fun s4 =>
          litK "]".data (fun s5 =>
            starL isDotAll (fun s6 =>
              litK "public".data (fun s7 =>
                starL isDotAll (fun s8 =>
                  altK ["void".data, "async Task".data] (fun _kw s9 =>
                    plusG isWs (fun s10 =>
                      plusGCap isWordChar (fun nm s11 => some ((attr, nm), s11))
                        s10) s9) s8) s7) s6) s5) s4) s3) s2) s1) s

/-- Match length and captures of the `extractTestMethods` pattern. -/
def tryUtil (s : List Char) : Option (Nat × (List Char × List Char)) :=
  (tryUtilCore s).map fun r => (s.length - r.2.length, r.1)

/-- A test method found by `CSharpUtils.extractTestMethods`. -/
structure UtilTestMethod where
  name : String
  attr : String
  line : Nat
  deriving Repr, DecidableEq

/-- `CSharpUtils.extractTestMethods`: one record per match of the single
pattern; the line is the number of newlines before the match index. -/
def extractTestMethods (content : String) : List UtilTestMethod :=
  (execAll tryUtil content.data).map fun m =>
    { name := ⟨m.2.2⟩, attr := ⟨m.2.1⟩, line := (content.data.take m.1).count '\n' }

/-- Common shape of the three `findTestMethods` matchers: run the core,
then return the consumed length together with the captured name. -/
def tryOf (core : List Char → Option (List Char × List Char)) (s : List Char) :
    Option (Nat × List Char) :=
  (core s).map fun r => (s.length - r.2.length, r.1)

/-! ## Claim C3: amended statement

A single textually well-formed attribute/method pair, rendered at the very
start of the file as `[<attr>]\npublic void <name>() \x7b\x7d`. -/

/-- The five attribute tokens the specification lists. -/
inductive TestAttr where
  | fact
  | theory
  | test
  | testCase
  | testMethod
  deriving DecidableEq, Repr

/-- The attribute token text. -/
def attrToken : TestAttr → String
  | .fact => "Fact"
  | .theory => "Theory"
  | .test => "Test"
  | .testCase => "TestCase"
  | .testMethod => "TestMethod"

/-- How many of the three `findTestMethods` patterns match a pair with this
attribute: `TestMethod` matches both the NUnit pattern `\[Test(Case)?.*?\]…`
and the MSTest pattern `\[TestMethod.*?\]…`; every other token matches
exactly one pattern. -/
def leafMultiplicity : TestAttr → Nat
  | .testMethod => 2
  | _ => 1

/-- A textually well-formed attribute/method pair at the start of a file. -/
def renderPair (a : TestAttr) (name : String) : String :=
  "[" ++ attrToken a ++ "]\npublic void " ++ name ++ "() \x7b\x7d"

/-! ## Project locator (`findProjectForTest`, `CSharpUtils.findProjectFile`)

Directories are modelled as their path components, deepest first; `[]` is
the file-system root.  `path.dirname` is `List.tail`, and
`path.dirname(root) == root` holds because `tail [] = []`.  The external
`vscode.workspace.findFiles(RelativePattern(dir, '*.csproj'), null, 1)`
call is modelled from the spec's contract (§4.4/§6): a non-recursive
listing of the `*.csproj` files of one directory whose first result is the
lexicographically-first match. -/

/-- The file system seen by the locator: the `*.csproj` file names present
directly in each directory. -/
structure CsFileSystem where
  csprojFiles : List String → List String

/-- Lexicographic comparison of character lists. -/
def lexLt : List Char → List Char → Bool
  | [], [] => false
  | [], _ :: _ => true
  | _ :: _, [] => false
  | a :: as, b :: bs => if a < b then true else if b < a then false else lexLt as bs

/-- First element of a directory listing in lexicographic order — the
single result of the capped `findFiles` call.  Modelled from the spec:
"ties within a directory are resolved by taking the lexicographically-first
match" (§4.4); the TypeScript source only reads `files[0]` of the external
API. -/
def lexFirst (l : List String) : Option String :=
  l.foldl (fun acc x =>
    match acc with
    | none => some x
    | some a => some (if lexLt x.data a.data then x else a)) none

/-- A located project: the directory that contains the descriptor (the
`path.dirname` of the match) and the descriptor's file name. -/
structure ProjectInfo where
  projectDir : List String
  projectName : String
  deriving DecidableEq, Repr

/-- The upward-search loop of `findProjectForTest` /
`CSharpUtils.findProjectFile` with the given number of iterations left
(`for (let i = 0; i < maxDepth; i++)`): look for a `*.csproj` in the
current directory; if found, return it; otherwise move to the parent,
stopping when the parent equals the current directory. -/
def findProjectLoop (fs : CsFileSystem) : Nat → List String → Option ProjectInfo
  | 0, _ => none
  | i + 1, dir =>
    match lexFirst (fs.csprojFiles dir) with
    | some f => some ⟨dir, f⟩
    | none =>
      if dir.tail = dir then none
      else findProjectLoop fs i dir.tail

/-- `findProjectForTest`: start at the containing directory of the test's
source file (`path.dirname(uri.fsPath)`) and search upward with
`maxDepth = 5`. -/
def findProjectForTest (fs : CsFileSystem) (file : List String × String) :
    Option ProjectInfo :=
  findProjectLoop fs 5 file.1

/-- The chain of directories the locator examines: the start directory and
its ancestors, at most `n` of them, ending at the file-system root. -/
def visitedDirs : Nat → List String → List (List String)
  | 0, _ => []
  | i + 1, dir => dir :: (if dir.tail = dir then [] else visitedDirs i dir.tail)

/-! ## Test items and the run handler (`runHandler`, `extension.ts` variant)

`vscode.TestItem`s are modelled as a tree of items carrying the id, the
label, an optional source uri (as containing directory + file name) and
the ordered children.  A VS Code test controller enforces unique item ids,
so the source's object-identity comparisons (`excluded === parent`) are
modelled as id comparisons; the run-handler theorems assume id uniqueness
explicitly. -/

/-- A `vscode.TestItem`. -/
inductive TItem where
  | mk (id : String) (label : String) (uri : Option (List String × String))
      (children : List TItem)

/-- The item's id. -/
def TItem.id : TItem → String
  | .mk i _ _ _ => i

/-- The item's label. -/
def TItem.label : TItem → String
  | .mk _ l _ _ => l

/-- The item's source uri (containing directory and file name). -/
def TItem.uri : TItem → Option (List String × String)
  | .mk _ _ u _ => u

/-- The item's children. -/
def TItem.children : TItem → List TItem
  | .mk _ _ _ ch => ch

mutual
/-- Number of nodes of an item's subtree (termination measure). -/
def itemWeight : TItem → Nat
  | .mk _ _ _ ch => 1 + listWeight ch
/-- Number of nodes of a forest. -/
def listWeight : List TItem → Nat
  | [] => 0
  | t :: ts => itemWeight t + listWeight ts
end

mutual
/-- All strict descendants of an item. -/
def nodeDesc : TItem → List TItem
  | .mk _ _ _ ch => forestNodes ch
/-- All nodes of a forest: the roots and all their descendants. -/
def forestNodes : List TItem → List TItem
  | [] => []
  | t :: ts => t :: (nodeDesc t ++ forestNodes ts)
end

/-- `isAncestorOf` of the run handler: the excluded item appears on the
test's parent chain.  In a tree with unique ids this is equivalent to the
test being a strict descendant of the excluded item, which is how it is
modelled (by id, matching the source's `excluded.id === test.id` and
object-identity comparisons). -/
def isAncestorOf (anc t : TItem) : Bool :=
  (nodeDesc anc).any fun d => d.id == t.id

/-- The run handler's exclusion test:
`request.exclude?.some(excluded => excluded.id === test.id || isAncestorOf(excluded, test))`. -/
def excludedBy (exclude : List TItem) (t : TItem) : Bool :=
  exclude.any fun e => e.id == t.id || isAncestorOf e t

/-- Outcome of the spawned `dotnet test` process: exit code, accumulated
stdout and stderr, and wall-clock duration. -/
structure ProcOutcome where
  code : Int
  stdout : String
  stderr : String
  duration : Nat

/-- The environment a run executes in: the file system used by the project
locator, the behaviour of each spawned external process (or the exception
raised while dispatching), and the cancellation token, sampled at each
iteration of the queue loop. -/
structure RunEnv where
  fs : CsFileSystem
  exec : List String → String → Except String ProcOutcome
  cancelledAt : Nat → Bool

/-- Observable actions of a test run, in order: the `TestRun` status calls,
the appended output, and the external process spawns / debug launches. -/
inductive REvent where
  | started (id : String)
  | passed (id : String) (duration : Nat)
  | failed (id : String) (message : String)
  | skipped (id : String)
  | output (text : String)
  | spawn (projectDir : List String) (filterName : String)
  | debugLaunch (projectPath : String) (filterName : String)
  deriving DecidableEq, Repr

/-- Rendered path of a located project file. -/
def projPathString (p : ProjectInfo) : String :=
  String.intercalate "/" (p.projectDir.reverse ++ [p.projectName])

/-- The text after the last `::` of a string, scanning left to right
(`id.split('::')` and taking the last element). -/
def lastSegmentAux : List Char → List Char → List Char
  | cand, [] => cand
  | cand, c :: cs =>
    if beginsWith (c :: cs) [':', ':'] then lastSegmentAux (cs.drop 1) (cs.drop 1)
    else lastSegmentAux cand cs
termination_by _ s => s.length
decreasing_by
  · simp
    omega
  · simp

/-- The test method name extracted from the item id
(`test.id.split('::')` → last part). -/
def lastIdSegment (id : String) : String :=
  ⟨lastSegmentAux id.data id.data⟩

/-- `findProjectForTest(test)`: `undefined` when the item has no uri,
otherwise the upward `*.csproj` search from the file's directory. -/
def resolveProject (env : RunEnv) (t : TItem) : Option ProjectInfo :=
  match t.uri with
  | none => none
  | some file => findProjectForTest env.fs file

/-- The events of running one leaf (the body of the run handler's queue
loop after the container checks): mark started; if the project cannot be
resolved, mark skipped and append a note; otherwise append the running
note, spawn `dotnet test --filter FullyQualifiedName~<method>`, append the
streamed stdout and stderr, and map the exit code through
`runDotnetTest`'s close handler; a dispatch exception marks the leaf
failed with the exception text. -/
def dispatchLeaf (env : RunEnv) (t : TItem) : List REvent :=
  REvent.started t.id ::
  (match resolveProject env t with
    | none =>
      [REvent.skipped t.id,
        REvent.output ("Could not find project for test: " ++ t.id ++ "\n")]
    | some proj =>
      REvent.output ("Running test: " ++ t.label ++ " from " ++ projPathString proj ++ "\n") ::
      (match env.exec proj.projectDir (lastIdSegment t.id) with
        | .error msg =>
          [REvent.failed t.id msg,
            REvent.output ("Error running test " ++ t.id ++ ": " ++ msg ++ "\n")]
        | .ok o =>
          REvent.spawn proj.projectDir (lastIdSegment t.id) ::
          REvent.output o.stdout :: REvent.output o.stderr ::
          (if (dotnetCloseResult o.code o.stdout o.stderr o.duration).success then
            [REvent.passed t.id o.duration]
          else
            [REvent.failed t.id (dotnetCloseResult o.code o.stdout o.stderr o.duration).message])))

/-- The run handler's queue loop: stop when the queue is empty or the
cancellation token fires; drop excluded items; expand containers by
appending their children to the queue; dispatch leaves. -/
def runLoop (env : RunEnv) (exclude : List TItem) : List TItem → Nat → List REvent
  | [], _ => []
  | t :: rest, step =>
    if env.cancelledAt step then []
    else if excludedBy exclude t then runLoop env exclude rest (step + 1)
    else if 0 < t.children.length then runLoop env exclude (rest ++ t.children) (step + 1)
    else dispatchLeaf env t ++ runLoop env exclude rest (step + 1)
termination_by q _ => listWeight q
decreasing_by
  · have h1 : 1 ≤ itemWeight t := by cases t with | mk i9 l9 u9 c9 => simp [itemWeight]
    simp [listWeight]
    omega
  · have h2 : itemWeight t = 1 + listWeight t.children := by
      cases t with | mk i9 l9 u9 c9 => rfl
    have h3 : ∀ a b : List TItem, listWeight (a ++ b) = listWeight a + listWeight b := by
      intro a b
      induction a with
      | nil => simp [listWeight]
      | cons x xs ih =>
        simp only [List.cons_append, listWeight, List.append_eq]
        rw [ih]
        omega
    simp [listWeight, h3]
    omega
  · have h1 : 1 ≤ itemWeight t := by cases t with | mk i9 l9 u9 c9 => simp [itemWeight]
    simp [listWeight]
    omega

/-- `runHandler`: the queue starts as `request.include` when given, else
all controller roots; then the queue loop runs. -/
def runHandler (env : RunEnv) (roots : List TItem) (includeReq : Option (List TItem))
    (exclude : List TItem) : List REvent :=
  runLoop env exclude (match includeReq with | some inc => inc | none => roots) 0

/-- The leaf a `TestRun` status event is about (`started`, `passed`,
`failed`, `skipped` carry a leaf id; output and spawns do not). -/
def leafEventId : REvent → Option String
  | .started i => some i
  | .passed i _ => some i
  | .failed i _ => some i
  | .skipped i => some i
  | _ => none

/-! ## Debug handler (`debugHandler`, part of the controller)

The debug request takes the first included item; if it is a container, a
FIFO queue walk (`queue.shift()` / `queue.push(...)`, i.e. breadth-first)
finds the first childless item, which becomes the test to debug.  A
debugging session is then launched for it; no passed/failed status is
derived from the session, only a failure when the session cannot start. -/

/-- The first childless item in breadth-first order, as computed by the
debug handler's queue loop. -/
def bfsFirstLeaf : List TItem → Option TItem
  | [] => none
  | t :: rest =>
    if t.children.length = 0 then some t
    else bfsFirstLeaf (rest ++ t.children)
termination_by q => listWeight q
decreasing_by
  have h2 : itemWeight t = 1 + listWeight t.children := by
    cases t with | mk i9 l9 u9 c9 => rfl
  have h3 : ∀ a b : List TItem, listWeight (a ++ b) = listWeight a + listWeight b := by
    intro a b
    induction a with
    | nil => simp [listWeight]
    | cons x xs ih =>
        simp only [List.cons_append, listWeight, List.append_eq]
        rw [ih]
        omega
  simp [listWeight, h3]
  omega

/-- The breadth-first visit order of the debug handler's queue loop. -/
def bfsOrder : List TItem → List TItem
  | [] => []
  | t :: rest =>
    if t.children.length = 0 then t :: bfsOrder rest
    else t :: bfsOrder (rest ++ t.children)
termination_by q => listWeight q
decreasing_by
  · have h1 : 1 ≤ itemWeight t := by cases t with | mk i9 l9 u9 c9 => simp [itemWeight]
    simp [listWeight]
    omega
  · have h2 : itemWeight t = 1 + listWeight t.children := by
      cases t with | mk i9 l9 u9 c9 => rfl
    have h3 : ∀ a b : List TItem, listWeight (a ++ b) = listWeight a + listWeight b := by
      intro a b
      induction a with
      | nil => simp [listWeight]
      | cons x xs ih =>
        simp only [List.cons_append, listWeight, List.append_eq]
        rw [ih]
        omega
    simp [listWeight, h3]
    omega

/-- The test the debug handler selects: the first included item, replaced
by the first childless item of its subtree in breadth-first order when it
has children (the selection variable keeps its initial value if the queue
loop never finds one). -/
def selectTestToDebug (includeReq : List TItem) : Option TItem :=
  match includeReq with
  | [] => none
  | first :: _ =>
    if 0 < first.children.length then
      match bfsFirstLeaf [first] with
      | some l => some l
      | none => some first
    else some first

/-- The environment of a debug request: the file system for the project
locator and whether `vscode.debug.startDebugging` resolves successfully. -/
structure DebugEnv where
  fs : CsFileSystem
  debugOk : Bool

/-- The events of the debug handler: reject requests without a selectable
test or uri; otherwise mark it started, resolve its project (skipping with
a note when unresolved), launch the debugging session, and mark the test
failed only when the session fails to start. -/
def debugHandler (env : DebugEnv) (includeReq : List TItem) : List REvent :=
  match selectTestToDebug includeReq with
  | none => [REvent.output "No valid test specified for debugging.\n"]
  | some sel =>
    match sel.uri with
    | none => [REvent.output "No valid test specified for debugging.\n"]
    | some file =>
      REvent.started sel.id ::
      (match findProjectForTest env.fs file with
        | none =>
          [REvent.skipped sel.id,
            REvent.output ("Could not find project for test: " ++ sel.id ++ "\n")]
        | some proj =>
          REvent.debugLaunch (projPathString proj) (lastIdSegment sel.id) ::
          (if env.debugOk then []
            else [REvent.failed sel.id "Failed to start debugging"]))

/-- The first leaf in depth-first order.  Modelled from the spec's words
("the first leaf reachable from the request's `include`, depth-first") for
comparison with the implemented breadth-first selection. -/
def dfsFirstLeaf : TItem → TItem
  | .mk i lb u [] => .mk i lb u []
  | .mk _ _ _ (c :: _) => dfsFirstLeaf c
termination_by t => itemWeight t
decreasing_by
  cases c with
  | mk ci cl cu cch => simp [itemWeight, listWeight]; omega

/-! ## Debounced trigger (`triggerTestRun` of `extension.ts`, `debounce` of
the delayed-initialization variant)

All three watcher callbacks (`onDidCreate`, `onDidChange`, `onDidDelete`)
call the same `triggerTestRun`, which clears any pending timer and arms a
new one `debounceDelay` milliseconds in the future; an armed timer that is
never cleared fires at its scheduled time.  The timer semantics is made
explicit: events are processed in arrival (time) order, each event cancels
the pending timer only if that timer has not fired yet (its scheduled time
is still in the future), and then schedules a new firing at
`eventTime + delay`. -/

/-- A qualifying file-system watcher event. -/
inductive FsEventKind where
  | created
  | changed
  | deleted
  deriving DecidableEq, Repr

/-- Process the time-ordered watcher events carrying the currently armed
timer (`debounceTimer`), returning the times at which the trigger actually
fires. -/
def fireTimesAux (delay : Nat) : Option Nat → List (FsEventKind × Nat) → List Nat
  | pending, [] =>
    (match pending with
      | some ft => [ft]
      | none => [])
  | pending, (_, t) :: rest =>
    (match pending with
      | some ft =>
        if ft ≤ t then ft :: fireTimesAux delay (some (t + delay)) rest
        else fireTimesAux delay (some (t + delay)) rest
      | none => fireTimesAux delay (some (t + delay)) rest)

/-- All firings of the debounced `testing.runAll` trigger produced by a
time-ordered sequence of watcher events (every event kind is routed to the
same `triggerTestRun`). -/
def triggerFireTimes (delay : Nat) (events : List (FsEventKind × Nat)) : List Nat :=
  fireTimesAux delay none events

/-! ## Workspace scanner (`Workspace.scanWorkspace` / `scanFolder` /
`getTestItems`, part_001 variant)

The file system is a forest of named entries; scanning a directory maps
each file to a `FileNode {name, hasTests: tests.length > 0, children:
tests}` and each directory to a `FolderNode {name, children, hasTests:
children.some(hasTests)}`.  Nothing is pruned: empty files and folders are
kept with `hasTests = false`. -/

mutual
/-- A file-system entry: a file with its content, or a directory. -/
inductive FsEntry where
  | file (name : String) (content : String)
  | dir (name : String) (entries : FsEntryList)
/-- A listing of file-system entries. -/
inductive FsEntryList where
  | nil
  | cons (e : FsEntry) (es : FsEntryList)
end

/-- A node of the scanned workspace tree: `FolderNode` or `FileNode`
(the `TestItem` leaves inside a `FileNode` carry only a name). -/
inductive WNode where
  | folderN (name : String) (children : List WNode) (hasTests : Bool)
  | fileN (name : String) (hasTests : Bool) (tests : List String)

/-- The stored `hasTests` flag of a node. -/
def nodeHasTests : WNode → Bool
  | .folderN _ _ h => h
  | .fileN _ h _ => h

/-- `String.endsWith`, on the character lists. -/
def strEndsWith (s suffix : String) : Bool :=
  endsWithList s.data suffix.data

/-- Anchored matcher for the case-insensitive test-class marker
`\[\s*Test(Class|Fixture)\s*\]|\[\s*Fact\s*\]|Microsoft\.VisualStudio\.TestTools|NUnit\.Framework|Xunit`
over lower-cased text (modelling the `i` flag). -/
def tryTestClassMarker (s : List Char) : Option Unit :=
  match litK "[".data (fun s1 =>
      starG isWs (fun s2 =>
        litK "test".data (fun s3 =>
          altK ["class".data, "fixture".data] (fun _ s4 =>
            starG isWs (fun s5 =>
              litK "]".data (fun _ => some ()) s5) s4) s3) s2) s1) s with
  | some r => some r
  | none =>
    match litK "[".data (fun s1 =>
        starG isWs (fun s2 =>
          litK "fact".data (fun s3 =>
            starG isWs (fun s4 =>
              litK "]".data (fun _ => some ()) s4) s3) s2) s1) s with
    | some r => some r
    | none =>
      match litK "microsoft.visualstudio.testtools".data (fun _ => some ()) s with
      | some r => some r
      | none =>
        match litK "nunit.framework".data (fun _ => some ()) s with
        | some r => some r
        | none => litK "xunit".data (fun _ => some ()) s

/-- `hasTestClass`: does the content contain the marker pattern
(case-insensitive `test()` search)? -/
def hasTestClassMarker (content : String) : Bool :=
  (firstSearch tryTestClassMarker (content.data.map Char.toLower)).isSome

/-- The optional `(?:async\s+)?` group, greedy. -/
def optAsyncK (k : List Char → Option α) (s : List Char) : Option α :=
  match litK "async".data (fun s1 => plusG isWs k s1) s with
  | some r => some r
  | none => k s

/-- Anchored matcher for the part_001 test-method pattern
`\[\s*(Test|TestMethod|Fact|Theory)\s*\][^{]*?public\s+(?:async\s+)?(?:void|Task)\s+(\w+)`,
returning the captured method name and the remainder. -/
def tryWsMethodCore (s : List Char) : Option (List Char × List Char) :=
  litK "[".data (fun s1 =>
    starG isWs (fun s2 =>
      altK ["Test".data, "TestMethod".data, "Fact".data, "Theory".data] (fun _attr s3 =>
        starG isWs (fun s4 =>
          litK "]".data (fun s5 =>
            starL isNotBrace (fun s6 =>
              litK "public".data (fun s7 =>
                plusG isWs (fun s8 =>
                  optAsyncK (fun s9 =>
                    altK ["void".data, "Task".data] (fun _kw s10 =>
                      plusG isWs (fun s11 =>
                        plusGCap isWordChar (fun nm s12 => some (nm, s12))
                          s11) s10) s9) s8) s7) s6) s5) s4) s3) s2) s1) s

/-- `getTestItems`: non-`.cs` paths yield nothing; otherwise the content
must contain the test-class marker, and then every match of the
test-method pattern contributes one `TestItem {name}`. -/
def getTestItems (filePath : String) (content : String) : List String :=
  if !strEndsWith filePath ".cs" then []
  else if hasTestClassMarker content then
    (execAll (tryOf tryWsMethodCore) content.data).map fun m => ⟨m.2⟩
  else []

mutual
/-- `scanFolder`, per entry: directories recurse, files extract their test
items. -/
def scanEntry : FsEntry → WNode
  | .file name content =>
    let tests := getTestItems name content
    .fileN name (decide (0 < tests.length)) tests
  | .dir name es =>
    let children := scanList es
    .folderN name children (children.any nodeHasTests)
/-- `scanFolder` over a directory listing. -/
def scanList : FsEntryList → List WNode
  | .nil => []
  | .cons e es => scanEntry e :: scanList es
end

/-- `scanWorkspace`: the flattened scans of all workspace folders under a
synthetic `Workspace` root whose `hasTests` is the disjunction of its
children's. -/
def scanWorkspace (wsFolders : List FsEntryList) : WNode :=
  let nodes := (wsFolders.map scanList).flatten
  .folderN "Workspace" nodes (nodes.any nodeHasTests)

mutual
/-- Does the node have at least one descendant leaf (a `TestItem` inside
some `FileNode`), judged from the structure rather than the stored
flags? -/
def hasDescendantLeaf : WNode → Bool
  | .folderN _ ch _ => anyDescendantLeaf ch
  | .fileN _ _ tests => decide (0 < tests.length)
/-- Some node of the forest has a descendant leaf. -/
def anyDescendantLeaf : List WNode → Bool
  | [] => false
  | n :: ns => hasDescendantLeaf n || anyDescendantLeaf ns
end

mutual
/-- All nodes of a subtree. -/
def collectNode : WNode → List WNode
  | .folderN name ch h => .folderN name ch h :: collectForest ch
  | .fileN name h tests => [.fileN name h tests]
/-- All nodes of a forest. -/
def collectForest : List WNode → List WNode
  | [] => []
  | n :: ns => collectNode n ++ collectForest ns
end

/-! ## Test-file naming predicates

`checkAndAddTestFile` (file-create events) accepts a file name when
`fileName.includes('Test') || fileName.includes('Tests') ||
fileName.includes('Spec')` — case-sensitive substring containment, with no
constraint on the extension.  `CSharpUtils.isLikelyTestFile` (and the
`TestDiscoveryService`) instead test `/(Test|Tests|TestCase|Spec)\.cs$/i` —
a case-insensitive suffix immediately before `.cs`.  The full workspace
scan `findCSharpTestFiles` globs `'**/*{Test,Tests,TestCase,Spec}.cs'`,
a case-sensitive suffix before `.cs`. -/

/-- The file-create predicate of `checkAndAddTestFile`. -/
def checkAndAddTestFilePred (fileName : String) : Bool :=
  containsSub fileName.data "Test".data || containsSub fileName.data "Tests".data ||
  containsSub fileName.data "Spec".data

/-- `CSharpUtils.isLikelyTestFile`: the case-insensitive regex
`/(Test|Tests|TestCase|Spec)\.cs$/i`, i.e. the lower-cased name ends in
one of the four suffixes followed by `.cs`. -/
def isLikelyTestFile (fileName : String) : Bool :=
  endsWithList (fileName.data.map Char.toLower) "test.cs".data ||
  endsWithList (fileName.data.map Char.toLower) "tests.cs".data ||
  endsWithList (fileName.data.map Char.toLower) "testcase.cs".data ||
  endsWithList (fileName.data.map Char.toLower) "spec.cs".data

/-- The suffix test of the `findCSharpTestFiles` glob
`'**/*{Test,Tests,TestCase,Spec}.cs'` (case-sensitive). -/
def globSuffixTestPred (fileName : String) : Bool :=
  endsWithList fileName.data "Test.cs".data ||
  endsWithList fileName.data "Tests.cs".data ||
  endsWithList fileName.data "TestCase.cs".data ||
  endsWithList fileName.data "Spec.cs".data

/-! ## Theorems -/

/-! ## Basic lemmas about the exec machinery -/

/-- Every position enumerated by `tailsFrom` is at least the start position. -/
theorem tailsFrom_fst_ge (s : List Char) (pos : Nat) :
    ∀ x ∈ tailsFrom s pos, pos ≤ x.1 := by
  induction s generalizing pos with
  | nil => intro x hx; simp [tailsFrom] at hx; simp [hx]
  | cons c cs ih =>
    intro x hx
    simp only [tailsFrom, List.mem_cons] at hx
    rcases hx with h | h
    · simp [h]
    · exact Nat.le_of_succ_le (ih (pos + 1) x h)

/-- The positions enumerated by `tailsFrom` are strictly increasing. -/
theorem tailsFrom_fst_pairwise (s : List Char) (pos : Nat) :
    ((tailsFrom s pos).map Prod.fst).Pairwise (· < ·) := by
  induction s generalizing pos with
  | nil => simp [tailsFrom]
  | cons c cs ih =>
    simp only [tailsFrom, List.map_cons, List.pairwise_cons]
    refine ⟨?_, ih (pos + 1)⟩
    intro a ha
    simp only [List.mem_map] at ha
    obtain ⟨x, hx, rfl⟩ := ha
    exact Nat.lt_of_succ_le (tailsFrom_fst_ge cs (pos + 1) x hx)

/-- The positions kept by `execSelect` form a sublist of the candidate
positions. -/
theorem execSelect_fst_sublist (m : Nat) (l : List (Nat × Option (Nat × β))) :
    ((execSelect m l).map Prod.fst).Sublist (l.map Prod.fst) := by
  induction l generalizing m with
  | nil => simp [execSelect]
  | cons e rest ih =>
    obtain ⟨p, o⟩ := e
    match o with
    | none => exact (ih m).cons p
    | some (len, cap) =>
      by_cases h : m ≤ p
      · simpa [execSelect, h] using (ih (p + len)).cons₂ p
      · have heq : execSelect m ((p, some (len, cap)) :: rest) = execSelect m rest := by
          simp [execSelect, h]
        rw [heq, List.map_cons]
        exact (ih m).cons p

/-! ## Claim C2 -/

/-- C2: on completion of the external `dotnet test` process, exit code 0
maps the leaf to `passed` (`success = true`, message `Test passed`); any
non-zero exit code maps it to `failed`, with message `Test failed: <name>`
exactly when the accumulated stdout matches `Failed <name> [<details>]`
(the `/Failed\s+(.*?)\s+\[(.*?)\]/` pattern) and exactly the generic
`Test failed` otherwise; the accumulated stderr never influences the
result (message extraction reads only stdout). -/
theorem runDotnetTest_exit_code_mapping (code : Int) (stdout stderr stderr2 : String)
    (dur : Nat) :
    (code = 0 → dotnetCloseResult code stdout stderr dur =
      { success := true, message := "Test passed", duration := dur }) ∧
    (code ≠ 0 → (dotnetCloseResult code stdout stderr dur).success = false ∧
      (dotnetCloseResult code stdout stderr dur).message =
        (match extractFailedName stdout with
          | some n => "Test failed: " ++ n
          | none => "Test failed")) ∧
    dotnetCloseResult code stdout stderr dur = dotnetCloseResult code stdout stderr2 dur := by
  refine ⟨fun h => by simp [dotnetCloseResult, h], fun h => ?_, rfl⟩
  simp only [dotnetCloseResult, if_neg h]
  cases extractFailedName stdout <;> simp

/-- C2 witness: exit code 0 yields `passed`; exit code 1 with stdout
containing `Failed MyTest [reason]` yields `failed` with message
`Test failed: MyTest`. -/
theorem runDotnetTest_exit_code_mapping_witness :
    dotnetCloseResult 0 "out" "err" 3 =
      { success := true, message := "Test passed", duration := 3 } ∧
    (dotnetCloseResult 1 "Failed MyTest [reason]" "err" 7).success = false ∧
    (dotnetCloseResult 1 "Failed MyTest [reason]" "err" 7).message = "Test failed: MyTest" := by
  have h0 := runDotnetTest_exit_code_mapping 0 "out" "err" "err" 3
  have h1 := runDotnetTest_exit_code_mapping 1 "Failed MyTest [reason]" "err" "err" 7
  refine ⟨h0.1 rfl, (h1.2.1 (by decide)).1, ?_⟩
  rw [(h1.2.1 (by decide)).2]
  decide

/-! ## Claim C3: counterexample -/

/-- C3 counterexample: the text `"\n[TestMethod]\npublic void Foo() \x7b\x7d"`
contains exactly one textually well-formed attribute/method pair, whose
attribute token sits on line 1.  `findTestMethods` nevertheless returns two
leaves — the pair matches both the NUnit pattern `\[Test(Case)?.*?\]…` and
the MSTest pattern, and duplicate matches at the same source offset are not
suppressed — and both leaves record line 0 (the line at which the leading
`\s*` of the match starts), not the attribute's line 1. -/
theorem findTestMethods_duplicate_counterexample :
    findTestMethods "\n[TestMethod]\npublic void Foo() \x7b\x7d" =
      [{ name := "Foo", line := 0 }, { name := "Foo", line := 0 }] ∧
    findTestMethods "\n[TestMethod]\npublic void Foo() \x7b\x7d" ≠
      [{ name := "Foo", line := 1 }] := by
  constructor
  · decide
  · decide

/-! ## Claim C8: counterexample and per-pattern ordering -/

/-- C8 counterexample: for
`"[Fact]\npublic void A() \x7b\x7d\n[Test]\npublic void B() \x7b\x7d"` the NUnit
pattern's match for `B` (match index 25) is pushed before the xUnit
pattern's match for `A` (match index 0), because `findTestMethods` runs the
three framework patterns one after the other and concatenates their
matches.  The produced sequence of match offsets is `[25, 0]`, which is not
in source order. -/
theorem findTestMethods_source_order_counterexample :
    (findTestMethodsMatches
        "[Fact]\npublic void A() \x7b\x7d\n[Test]\npublic void B() \x7b\x7d".data).map Prod.fst =
      [25, 0] ∧
    ¬ List.Chain' (· ≤ ·)
      ((findTestMethodsMatches
        "[Fact]\npublic void A() \x7b\x7d\n[Test]\npublic void B() \x7b\x7d".data).map Prod.fst) := by
  constructor
  · decide
  · intro h
    have heq : (findTestMethodsMatches
        "[Fact]\npublic void A() \x7b\x7d\n[Test]\npublic void B() \x7b\x7d".data).map Prod.fst =
        [25, 0] := by decide
    rw [heq] at h
    simp [List.chain'_cons] at h

/-- C8 amended: within the matches of each single global pattern of
`findTestMethods`, match offsets are strictly increasing (the `exec` loop
only ever finds matches at or after the end of the previous one), so leaves
are in source order *per pattern*; only the concatenation across the three
patterns breaks global source order. -/
theorem findTestMethods_per_pattern_source_order (content : List Char) :
    ((execAll tryNUnit content).map Prod.fst).Pairwise (· < ·) ∧
    ((execAll tryXUnit content).map Prod.fst).Pairwise (· < ·) ∧
    ((execAll tryMSTest content).map Prod.fst).Pairwise (· < ·) := by
  refine ⟨?_, ?_, ?_⟩ <;>
  · unfold execAll
    refine List.Pairwise.sublist (execSelect_fst_sublist _ _) ?_
    have h := tailsFrom_fst_pairwise content 0
    simpa using h

/-! ## Character-class lemmas -/

/-- Every `\w` character is at most `'z'`. -/
theorem isWordChar_le_z {c : Char} (h : isWordChar c = true) : c ≤ 'z' := by
  simp only [isWordChar, Bool.or_eq_true, Bool.and_eq_true, decide_eq_true_eq] at h
  rcases h with ((⟨_, h⟩ | ⟨_, h⟩) | ⟨_, h⟩) | h
  · exact h
  · exact le_trans h (by decide)
  · exact le_trans h (by decide)
  · exact h ▸ (by decide)

/-- A `\w` character is never equal to a non-`\w` character. -/
theorem beq_eq_false_of_isWordChar {c : Char} (h : isWordChar c = true) (d : Char)
    (hd : isWordChar d = false) : (c == d) = false := by
  cases hq : c == d with
  | false => rfl
  | true => exact absurd ((eq_of_beq hq) ▸ h) (by simp [hd])

/-- A `\w` character is never regex whitespace. -/
theorem isWs_eq_false_of_isWordChar {c : Char} (h : isWordChar c = true) : isWs c = false := by
  have hz := isWordChar_le_z h
  have hlt : ¬ (' ' ≤ c) := fun hle =>
    absurd (lt_of_le_of_lt hz (by decide)) (not_lt.mpr hle)
  have k : ∀ d : Char, isWordChar d = false → decide (c = d) = false := by
    intro d hd
    apply decide_eq_false
    intro he
    rw [he, hd] at h
    exact Bool.false_ne_true h
  simp only [isWs, k ' ' (by decide), k '\t' (by decide), k '\n' (by decide),
    k '\r' (by decide), k '\x0b' (by decide), k '\x0c' (by decide),
    k '\u00A0' (by decide), k '\u1680' (by decide), k '\u2028' (by decide),
    k '\u2029' (by decide), k '\u202F' (by decide), k '\u205F' (by decide),
    k '\u3000' (by decide), k '\uFEFF' (by decide), decide_eq_false hlt,
    Bool.false_and, Bool.or_self, Bool.or_false, Bool.false_or]

/-! ## Matches of the three patterns can only start at a `[`

Each of the three `findTestMethods` patterns is leading whitespace followed
by a literal starting with `[`, so the anchored matcher fails on any suffix
that contains no `[` at all. -/

/-- If the text contains no `[`, a matcher of the shape
`\s*` + literal-starting-with-`[` + anything fails. -/
theorem starG_litK_none_of_no_bracket (p : Char → Bool) (l' : List Char)
    (k : List Char → Option α) :
    ∀ s : List Char, '[' ∉ s → starG p (litK ('[' :: l') k) s = none := by
  intro s
  induction s with
  | nil => intro _; simp [starG, litK, beginsWith]
  | cons c cs ih =>
    intro hn
    have hc : c ≠ '[' := fun he => hn (he ▸ List.mem_cons_self c cs)
    have hcs : '[' ∉ cs := fun hm => hn (List.mem_cons_of_mem c hm)
    have hk : litK ('[' :: l') k (c :: cs) = none := by
      simp [litK, beginsWith, beq_eq_false_iff_ne.mpr hc]
    by_cases hp : p c = true
    · simp [starG, hp, ih hcs, hk]
    · simp [starG, hk]
      intro hpc
      exact absurd hpc hp

/-- `tryNUnit` is `tryOf` of its core. -/
theorem tryNUnit_eq_tryOf : tryNUnit = tryOf tryNUnitCore := rfl

/-- `tryXUnit` is `tryOf` of its core. -/
theorem tryXUnit_eq_tryOf : tryXUnit = tryOf tryXUnitCore := rfl

/-- `tryMSTest` is `tryOf` of its core. -/
theorem tryMSTest_eq_tryOf : tryMSTest = tryOf tryMSTestCore := rfl

/-- The NUnit core fails on any suffix without a `[`. -/
theorem tryNUnitCore_no_bracket (s : List Char) (h : '[' ∉ s) : tryNUnitCore s = none := by
  unfold tryNUnitCore
  rw [show "[Test".data = '[' :: "Test".data from rfl]
  exact starG_litK_none_of_no_bracket isWs "Test".data _ s h

/-- The xUnit core fails on any suffix without a `[`. -/
theorem tryXUnitCore_no_bracket (s : List Char) (h : '[' ∉ s) : tryXUnitCore s = none := by
  unfold tryXUnitCore
  rw [show "[".data = '[' :: [] from rfl]
  exact starG_litK_none_of_no_bracket isWs [] _ s h

/-- The MSTest core fails on any suffix without a `[`. -/
theorem tryMSTestCore_no_bracket (s : List Char) (h : '[' ∉ s) : tryMSTestCore s = none := by
  unfold tryMSTestCore
  rw [show "[TestMethod".data = '[' :: "TestMethod".data from rfl]
  exact starG_litK_none_of_no_bracket isWs "TestMethod".data _ s h

/-- Characters of any suffix enumerated by `tailsFrom` are characters of
the original text. -/
theorem mem_of_mem_tailsFrom (s : List Char) (pos : Nat) :
    ∀ e ∈ tailsFrom s pos, ∀ c ∈ e.2, c ∈ s := by
  induction s generalizing pos with
  | nil => intro e he c hc; simp [tailsFrom] at he; rw [he] at hc; simp at hc
  | cons d ds ih =>
    intro e he c hc
    simp only [tailsFrom, List.mem_cons] at he
    rcases he with rfl | he
    · exact hc
    · exact List.mem_cons_of_mem d (ih (pos + 1) e he c hc)

/-- `execSelect` of a candidate list with no matches is empty. -/
theorem execSelect_nil_of_all_none (m : Nat) (l : List (Nat × Option (Nat × β)))
    (h : ∀ e ∈ l, e.2 = none) : execSelect m l = [] := by
  induction l generalizing m with
  | nil => simp [execSelect]
  | cons e rest ih =>
    obtain ⟨p, o⟩ := e
    have ho : o = none := h (p, o) (List.mem_cons_self _ _)
    subst ho
    exact ih m fun x hx => h x (List.mem_cons_of_mem _ hx)

/-- The `exec` loop over a text `[..rest` whose tail contains no further `[`
keeps exactly the match at position 0 (if any): each of the three
`findTestMethods` patterns requires a `[` right after its leading
whitespace, so no later position can match. -/
theorem execAll_tryOf_bracket (core : List Char → Option (List Char × List Char))
    (rest : List Char) (hnb : '[' ∉ rest)
    (hnone : ∀ s : List Char, '[' ∉ s → core s = none) :
    execAll (tryOf core) ('[' :: rest) =
      (match core ('[' :: rest) with
        | some r => [(0, r.1)]
        | none => []) := by
  have htail : ∀ e ∈ (tailsFrom rest 1).map
      (fun pt => (pt.1, tryOf core pt.2)), e.2 = none := by
    intro e he
    simp only [List.mem_map] at he
    obtain ⟨pt, hpt, rfl⟩ := he
    have hsub : '[' ∉ pt.2 := fun hm => hnb (mem_of_mem_tailsFrom rest 1 pt hpt '[' hm)
    simp [tryOf, hnone pt.2 hsub]
  show execSelect 0 ((tailsFrom ('[' :: rest) 0).map fun pt => (pt.1, tryOf core pt.2)) = _
  rw [show tailsFrom ('[' :: rest) 0 = (0, '[' :: rest) :: tailsFrom rest 1 from rfl,
    List.map_cons]
  cases hc : core ('[' :: rest) with
  | none =>
    rw [show tryOf core ('[' :: rest) = none by simp [tryOf, hc]]
    refine execSelect_nil_of_all_none 0 _ ?_
    intro x hx
    rcases List.mem_cons.mp hx with rfl | hx
    · rfl
    · exact htail x hx
  | some r =>
    rw [show tryOf core ('[' :: rest) =
      some (('[' :: rest).length - r.2.length, r.1) by simp [tryOf, hc]]
    show (if 0 ≤ 0 then _ :: execSelect _ _ else _) = _
    rw [if_pos (le_refl 0), execSelect_nil_of_all_none _ _ htail]

/-! ## Evaluating the three patterns at the start of a rendered pair -/

/-- Greedy capture over a `p`-run: consumes exactly the run when the
remainder does not start with a `p`-character, with no backtracking needed
because the continuation always succeeds. -/
theorem starGCap_run (p : Char → Bool) (f : List Char → List Char → β)
    (acc n rest : List Char) (hn : ∀ c ∈ n, p c = true)
    (hrest : ∀ x ∈ rest.head?, p x = false) :
    starGCap p (fun a s => some (f a s)) acc (n ++ rest) = some (f (acc.reverse ++ n) rest) := by
  induction n generalizing acc with
  | nil =>
    cases rest with
    | nil => simp [starGCap]
    | cons r rs =>
      have hr : p r = false := hrest r (by simp)
      simp [starGCap, hr]
  | cons d ds ih =>
    have hd : p d = true := hn d (by simp)
    have ihh := ih (d :: acc) (fun c hc => hn c (List.mem_cons_of_mem d hc))
    rw [List.cons_append]
    show (if p d then _ else _) = _
    rw [if_pos hd, ihh]
    simp

/-- The shared `\s*\n\s*public\s+void\s+(\w+)` tail of the three patterns,
applied to `"\npublic void " ++ name ++ "() \x7b\x7d"` for a non-empty
`\w`-word `name`: it captures exactly `name`. -/
theorem tryDeclTail_run (n : List Char) (h1 : n ≠ [])
    (h2 : ∀ c ∈ n, isWordChar c = true) :
    tryDeclTail ('\n' :: 'p' :: 'u' :: 'b' :: 'l' :: 'i' :: 'c' :: ' ' :: 'v' :: 'o' :: 'i' ::
        'd' :: ' ' :: (n ++ ['(', ')', ' ', '\x7b', '\x7d'])) =
      some (n, ['(', ')', ' ', '\x7b', '\x7d']) := by
  obtain ⟨c, cs, rfl⟩ : ∃ c cs, n = c :: cs := by
    cases n with
    | nil => exact absurd rfl h1
    | cons c cs => exact ⟨c, cs, rfl⟩
  have hcw : isWordChar c = true := h2 c (by simp)
  have hws : isWs c = false := isWs_eq_false_of_isWordChar hcw
  have hgrab := starGCap_run isWordChar (fun a s => (a, s)) [c] cs ['(', ')', ' ', '\x7b', '\x7d']
    (fun x hx => h2 x (List.mem_cons_of_mem c hx)) (by intro x hx; simp at hx; subst hx; decide)
  simp only [List.reverse_cons, List.reverse_nil, List.nil_append,
    List.singleton_append] at hgrab
  simp +decide [tryDeclTail, starG, litK, plusG, plusGCap, beginsWith, hws, hcw, hgrab]

/-- `splitLinesAux` never returns the empty list. -/
theorem splitLinesAux_ne_nil (acc s : List Char) : splitLinesAux acc s ≠ [] := by
  induction s generalizing acc with
  | nil => simp [splitLinesAux]
  | cons c cs ih =>
    by_cases hc : c = '\n'
    · simp [splitLinesAux, hc]
    · simpa [splitLinesAux, hc] using ih (c :: acc)

/-- A match starting at offset 0 is recorded on line 0. -/
theorem lineFor_zero (lines : List (List Char)) (h : lines ≠ []) : lineFor lines 0 = 0 := by
  cases lines with
  | nil => exact absurd rfl h
  | cons l ls => simp [lineFor, lineForAux]

/-- C3 amended: for a source text consisting of a single textually
well-formed attribute/method pair `[<attr>]\npublic void <name>() \x7b\x7d`
(attribute token in `{Fact, Theory, Test, TestMethod, TestCase}`, method
name a non-empty `\w`-word), `findTestMethods` returns one leaf per
framework pattern matching the pair — exactly one for `Fact`, `Theory`,
`Test` and `TestCase`, but two identical leaves for `TestMethod`, which
matches both the NUnit and the MSTest pattern: duplicate matches at the
same source offset are *not* suppressed.  Each leaf carries the correct
method name, and the recorded line is the line at which the match
(including its leading `\s*`) starts — line 0 here, which coincides with
the attribute's line only because no newline precedes the attribute. -/
theorem findTestMethods_single_pair (a : TestAttr) (name : String)
    (h1 : name.data ≠ []) (h2 : ∀ c ∈ name.data, isWordChar c = true) :
    findTestMethods (renderPair a name) =
      List.replicate (leafMultiplicity a) { name := name, line := 0 } := by
  have hdecl := tryDeclTail_run name.data h1 h2
  have hnbn : '[' ∉ name.data := fun hm => absurd (h2 '[' hm) (by decide)
  cases a with
  | fact =>
    have hdata : (renderPair TestAttr.fact name).data =
        '[' :: ("Fact]\npublic void ".data ++ (name.data ++ "() \x7b\x7d".data)) := by
      simp [renderPair, attrToken]
    have hnbR : '[' ∉ ("Fact]\npublic void ".data ++ (name.data ++ "() \x7b\x7d".data)) := by
      intro hm
      rcases List.mem_append.mp hm with hm | hm
      · revert hm; decide
      · rcases List.mem_append.mp hm with hm | hm
        · exact hnbn hm
        · revert hm; decide
    have hN : tryNUnitCore
        ('[' :: ("Fact]\npublic void ".data ++ (name.data ++ "() \x7b\x7d".data))) = none := by
      simp +decide [tryNUnitCore, optK, litK, starL, starG, beginsWith]
    have hX : tryXUnitCore
        ('[' :: ("Fact]\npublic void ".data ++ (name.data ++ "() \x7b\x7d".data))) =
        some (name.data, "() \x7b\x7d".data) := by
      simp +decide [tryXUnitCore, altK, litK, starL, starG, beginsWith, hdecl]
    have hM : tryMSTestCore
        ('[' :: ("Fact]\npublic void ".data ++ (name.data ++ "() \x7b\x7d".data))) = none := by
      simp +decide [tryMSTestCore, litK, starL, starG, beginsWith]
    unfold findTestMethods
    rw [hdata]
    unfold findTestMethodsMatches
    rw [tryNUnit_eq_tryOf, tryXUnit_eq_tryOf, tryMSTest_eq_tryOf,
      execAll_tryOf_bracket _ _ hnbR tryNUnitCore_no_bracket,
      execAll_tryOf_bracket _ _ hnbR tryXUnitCore_no_bracket,
      execAll_tryOf_bracket _ _ hnbR tryMSTestCore_no_bracket,
      hN, hX, hM]
    simp [splitLines, lineFor_zero _ (splitLinesAux_ne_nil [] _), List.replicate]
  | theory =>
    have hdata : (renderPair TestAttr.theory name).data =
        '[' :: ("Theory]\npublic void ".data ++ (name.data ++ "() \x7b\x7d".data)) := by
      simp [renderPair, attrToken]
    have hnbR : '[' ∉ ("Theory]\npublic void ".data ++ (name.data ++ "() \x7b\x7d".data)) := by
      intro hm
      rcases List.mem_append.mp hm with hm | hm
      · revert hm; decide
      · rcases List.mem_append.mp hm with hm | hm
        · exact hnbn hm
        · revert hm; decide
    have hN : tryNUnitCore
        ('[' :: ("Theory]\npublic void ".data ++ (name.data ++ "() \x7b\x7d".data))) = none := by
      simp +decide [tryNUnitCore, optK, litK, starL, starG, beginsWith]
    have hX : tryXUnitCore
        ('[' :: ("Theory]\npublic void ".data ++ (name.data ++ "() \x7b\x7d".data))) =
        some (name.data, "() \x7b\x7d".data) := by
      simp +decide [tryXUnitCore, altK, litK, starL, starG, beginsWith, hdecl]
    have hM : tryMSTestCore
        ('[' :: ("Theory]\npublic void ".data ++ (name.data ++ "() \x7b\x7d".data))) = none := by
      simp +decide [tryMSTestCore, litK, starL, starG, beginsWith]
    unfold findTestMethods
    rw [hdata]
    unfold findTestMethodsMatches
    rw [tryNUnit_eq_tryOf, tryXUnit_eq_tryOf, tryMSTest_eq_tryOf,
      execAll_tryOf_bracket _ _ hnbR tryNUnitCore_no_bracket,
      execAll_tryOf_bracket _ _ hnbR tryXUnitCore_no_bracket,
      execAll_tryOf_bracket _ _ hnbR tryMSTestCore_no_bracket,
      hN, hX, hM]
    simp [splitLines, lineFor_zero _ (splitLinesAux_ne_nil [] _), List.replicate]
  | test =>
    have hdata : (renderPair TestAttr.test name).data =
        '[' :: ("Test]\npublic void ".data ++ (name.data ++ "() \x7b\x7d".data)) := by
      simp [renderPair, attrToken]
    have hnbR : '[' ∉ ("Test]\npublic void ".data ++ (name.data ++ "() \x7b\x7d".data)) := by
      intro hm
      rcases List.mem_append.mp hm with hm | hm
      · revert hm; decide
      · rcases List.mem_append.mp hm with hm | hm
        · exact hnbn hm
        · revert hm; decide
    have hN : tryNUnitCore
        ('[' :: ("Test]\npublic void ".data ++ (name.data ++ "() \x7b\x7d".data))) =
        some (name.data, "() \x7b\x7d".data) := by
      simp +decide [tryNUnitCore, optK, litK, starL, starG, beginsWith, hdecl]
    have hX : tryXUnitCore
        ('[' :: ("Test]\npublic void ".data ++ (name.data ++ "() \x7b\x7d".data))) = none := by
      simp +decide [tryXUnitCore, altK, litK, starL, starG, beginsWith]
    have hM : tryMSTestCore
        ('[' :: ("Test]\npublic void ".data ++ (name.data ++ "() \x7b\x7d".data))) = none := by
      simp +decide [tryMSTestCore, litK, starL, starG, beginsWith]
    unfold findTestMethods
    rw [hdata]
    unfold findTestMethodsMatches
    rw [tryNUnit_eq_tryOf, tryXUnit_eq_tryOf, tryMSTest_eq_tryOf,
      execAll_tryOf_bracket _ _ hnbR tryNUnitCore_no_bracket,
      execAll_tryOf_bracket _ _ hnbR tryXUnitCore_no_bracket,
      execAll_tryOf_bracket _ _ hnbR tryMSTestCore_no_bracket,
      hN, hX, hM]
    simp [splitLines, lineFor_zero _ (splitLinesAux_ne_nil [] _), List.replicate]
  | testCase =>
    have hdata : (renderPair TestAttr.testCase name).data =
        '[' :: ("TestCase]\npublic void ".data ++ (name.data ++ "() \x7b\x7d".data)) := by
      simp [renderPair, attrToken]
    have hnbR : '[' ∉ ("TestCase]\npublic void ".data ++ (name.data ++ "() \x7b\x7d".data)) := by
      intro hm
      rcases List.mem_append.mp hm with hm | hm
      · revert hm; decide
      · rcases List.mem_append.mp hm with hm | hm
        · exact hnbn hm
        · revert hm; decide
    have hN : tryNUnitCore
        ('[' :: ("TestCase]\npublic void ".data ++ (name.data ++ "() \x7b\x7d".data))) =
        some (name.data, "() \x7b\x7d".data) := by
      simp +decide [tryNUnitCore, optK, litK, starL, starG, beginsWith, hdecl]
    have hX : tryXUnitCore
        ('[' :: ("TestCase]\npublic void ".data ++ (name.data ++ "() \x7b\x7d".data))) = none := by
      simp +decide [tryXUnitCore, altK, litK, starL, starG, beginsWith]
    have hM : tryMSTestCore
        ('[' :: ("TestCase]\npublic void ".data ++ (name.data ++ "() \x7b\x7d".data))) = none := by
      simp +decide [tryMSTestCore, litK, starL, starG, beginsWith]
    unfold findTestMethods
    rw [hdata]
    unfold findTestMethodsMatches
    rw [tryNUnit_eq_tryOf, tryXUnit_eq_tryOf, tryMSTest_eq_tryOf,
      execAll_tryOf_bracket _ _ hnbR tryNUnitCore_no_bracket,
      execAll_tryOf_bracket _ _ hnbR tryXUnitCore_no_bracket,
      execAll_tryOf_bracket _ _ hnbR tryMSTestCore_no_bracket,
      hN, hX, hM]
    simp [splitLines, lineFor_zero _ (splitLinesAux_ne_nil [] _), List.replicate]
  | testMethod =>
    have hdata : (renderPair TestAttr.testMethod name).data =
        '[' :: ("TestMethod]\npublic void ".data ++ (name.data ++ "() \x7b\x7d".data)) := by
      simp [renderPair, attrToken]
    have hnbR : '[' ∉ ("TestMethod]\npublic void ".data ++
        (name.data ++ "() \x7b\x7d".data)) := by
      intro hm
      rcases List.mem_append.mp hm with hm | hm
      · revert hm; decide
      · rcases List.mem_append.mp hm with hm | hm
        · exact hnbn hm
        · revert hm; decide
    have hN : tryNUnitCore
        ('[' :: ("TestMethod]\npublic void ".data ++ (name.data ++ "() \x7b\x7d".data))) =
        some (name.data, "() \x7b\x7d".data) := by
      simp +decide [tryNUnitCore, optK, litK, starL, starG, beginsWith, hdecl]
    have hX : tryXUnitCore
        ('[' :: ("TestMethod]\npublic void ".data ++
          (name.data ++ "() \x7b\x7d".data))) = none := by
      simp +decide [tryXUnitCore, altK, litK, starL, starG, beginsWith]
    have hM : tryMSTestCore
        ('[' :: ("TestMethod]\npublic void ".data ++ (name.data ++ "() \x7b\x7d".data))) =
        some (name.data, "() \x7b\x7d".data) := by
      simp +decide [tryMSTestCore, litK, starL, starG, beginsWith, hdecl]
    unfold findTestMethods
    rw [hdata]
    unfold findTestMethodsMatches
    rw [tryNUnit_eq_tryOf, tryXUnit_eq_tryOf, tryMSTest_eq_tryOf,
      execAll_tryOf_bracket _ _ hnbR tryNUnitCore_no_bracket,
      execAll_tryOf_bracket _ _ hnbR tryXUnitCore_no_bracket,
      execAll_tryOf_bracket _ _ hnbR tryMSTestCore_no_bracket,
      hN, hX, hM]
    simp [splitLines, lineFor_zero _ (splitLinesAux_ne_nil [] _), List.replicate]

/-- C3 amended, witness: for the attribute `TestMethod` and name `Foo`, the
rendered pair yields exactly two identical leaves. -/
theorem findTestMethods_single_pair_witness :
    findTestMethods (renderPair TestAttr.testMethod "Foo") =
      [{ name := "Foo", line := 0 }, { name := "Foo", line := 0 }] := by
  have h := findTestMethods_single_pair TestAttr.testMethod "Foo" (by decide) (by decide)
  simpa [leafMultiplicity, List.replicate] using h

/-- The loop equals the declarative first-match search over the visited
chain. -/
theorem findProjectLoop_eq_findSome (fs : CsFileSystem) (n : Nat) (dir : List String) :
    findProjectLoop fs n dir =
      (visitedDirs n dir).findSome? fun d =>
        (lexFirst (fs.csprojFiles d)).map fun f => (⟨d, f⟩ : ProjectInfo) := by
  induction n generalizing dir with
  | zero => simp [findProjectLoop, visitedDirs]
  | succ i ih =>
    show (match lexFirst (fs.csprojFiles dir) with
      | some f => some (⟨dir, f⟩ : ProjectInfo)
      | none => if dir.tail = dir then none else findProjectLoop fs i dir.tail) = _
    cases hf : lexFirst (fs.csprojFiles dir) with
    | some f => simp [visitedDirs, List.findSome?, hf]
    | none =>
      by_cases hroot : dir.tail = dir
      · simp [visitedDirs, List.findSome?, hf, hroot]
      · simp [visitedDirs, List.findSome?, hf, hroot, ih]

/-- C4: for every source file, the project locator starts at the file's
containing directory and walks upward through at most 5 directories (the
walk also stops when the parent equals the current directory, i.e. at the
file-system root); the first visited directory containing a descriptor
wins, with ties inside one directory resolved to the lexicographically
first descriptor (the modelled `findFiles(…, 1)` contract), and if no
visited directory contains a descriptor the locator returns none. -/
theorem findProjectForTest_spec (fs : CsFileSystem) (file : List String × String) :
    findProjectForTest fs file =
      (visitedDirs 5 file.1).findSome? fun d =>
        (lexFirst (fs.csprojFiles d)).map fun f => (⟨d, f⟩ : ProjectInfo) :=
  findProjectLoop_eq_findSome fs 5 file.1

/-- Weights add up over appended forests. -/
theorem listWeight_append (a b : List TItem) :
    listWeight (a ++ b) = listWeight a + listWeight b := by
  induction a with
  | nil => simp [listWeight]
  | cons t ts ih => simp [listWeight, ih]; omega

/-- Every item weighs at least one. -/
theorem itemWeight_pos (t : TItem) : 1 ≤ itemWeight t := by
  cases t with
  | mk i l u ch => simp [itemWeight]

/-- An item's weight is one more than its children's. -/
theorem itemWeight_eq (t : TItem) : itemWeight t = 1 + listWeight t.children := by
  cases t with
  | mk i l u ch => rfl

/-! ## Forest lemmas for the run handler -/

/-- Roots are nodes of their forest. -/
theorem self_mem_forestNodes (ts : List TItem) : ∀ t ∈ ts, t ∈ forestNodes ts := by
  induction ts with
  | nil => intro t ht; simp at ht
  | cons a as ih =>
    intro t ht
    rcases List.mem_cons.mp ht with rfl | ht
    · simp [forestNodes]
    · simp only [forestNodes, List.mem_cons, List.mem_append]
      exact Or.inr (Or.inr (ih t ht))

/-- Bounded-weight form: descendants of a forest node are forest nodes. -/
theorem forest_desc_closed_bounded (n : Nat) :
    ∀ ts : List TItem, listWeight ts ≤ n →
      ∀ e ∈ forestNodes ts, ∀ x ∈ nodeDesc e, x ∈ forestNodes ts := by
  induction n with
  | zero =>
    intro ts hw e he x hx
    cases ts with
    | nil => simp [forestNodes] at he
    | cons t ts' =>
      have := itemWeight_pos t
      simp [listWeight] at hw
      omega
  | succ m ih =>
    intro ts hw e he x hx
    cases ts with
    | nil => simp [forestNodes] at he
    | cons t ts' =>
      simp only [forestNodes, List.mem_cons, List.mem_append] at he
      rcases he with rfl | he | he
      · simp only [forestNodes, List.mem_cons, List.mem_append]
        exact Or.inr (Or.inl hx)
      · have hwc : listWeight t.children ≤ m := by
          have := itemWeight_eq t
          simp [listWeight] at hw
          omega
        have hxch : x ∈ forestNodes t.children := by
          have he' : e ∈ forestNodes t.children := by
            cases t with
            | mk i lb u ch => exact he
          exact ih t.children hwc e he' x hx
        simp only [forestNodes, List.mem_cons, List.mem_append]
        refine Or.inr (Or.inl ?_)
        cases t with
        | mk i lb u ch => exact hxch
      · have hw' : listWeight ts' ≤ m := by
          have := itemWeight_pos t
          simp [listWeight] at hw
          omega
        simp only [forestNodes, List.mem_cons, List.mem_append]
        exact Or.inr (Or.inr (ih ts' hw' e he x hx))

/-- Strict descendants of a forest node are forest nodes. -/
theorem forest_desc_closed (ts : List TItem) (e : TItem) (he : e ∈ forestNodes ts) :
    ∀ x ∈ nodeDesc e, x ∈ forestNodes ts :=
  forest_desc_closed_bounded (listWeight ts) ts (le_refl _) e he

/-- Children of a forest node are forest nodes. -/
theorem children_mem_forestNodes (ts : List TItem) (t : TItem) (ht : t ∈ forestNodes ts) :
    ∀ c ∈ t.children, c ∈ forestNodes ts := by
  intro c hc
  refine forest_desc_closed ts t ht c ?_
  cases t with
  | mk i lb u ch => exact self_mem_forestNodes ch c hc

/-- Every status event emitted while dispatching a leaf carries that
leaf's id. -/
theorem dispatchLeaf_eventId (env : RunEnv) (t : TItem) :
    ∀ ev ∈ dispatchLeaf env t, ∀ i, leafEventId ev = some i → i = t.id := by
  intro ev hev i hi
  unfold dispatchLeaf at hev
  rcases List.mem_cons.mp hev with rfl | hev
  · simp [leafEventId] at hi; exact hi.symm
  · cases hp : resolveProject env t with
    | none =>
      rw [hp] at hev
      simp only [List.mem_cons, List.not_mem_nil, or_false] at hev
      rcases hev with rfl | rfl
      · simp [leafEventId] at hi; exact hi.symm
      · simp [leafEventId] at hi
    | some proj =>
      rw [hp] at hev
      rcases List.mem_cons.mp hev with rfl | hev
      · simp [leafEventId] at hi
      · cases hx : env.exec proj.projectDir (lastIdSegment t.id) with
        | error msg =>
          rw [hx] at hev
          simp only [List.mem_cons, List.not_mem_nil, or_false] at hev
          rcases hev with rfl | rfl
          · simp [leafEventId] at hi; exact hi.symm
          · simp [leafEventId] at hi
        | ok o =>
          rw [hx] at hev
          rcases List.mem_cons.mp hev with rfl | hev
          · simp [leafEventId] at hi
          · rcases List.mem_cons.mp hev with rfl | hev
            · simp [leafEventId] at hi
            · rcases List.mem_cons.mp hev with rfl | hev
              · simp [leafEventId] at hi
              · by_cases hs : (dotnetCloseResult o.code o.stdout o.stderr o.duration).success = true
                · rw [if_pos hs] at hev
                  simp only [List.mem_cons, List.not_mem_nil, or_false] at hev
                  subst hev
                  simp [leafEventId] at hi
                  exact hi.symm
                · rw [if_neg hs] at hev
                  simp only [List.mem_cons, List.not_mem_nil, or_false] at hev
                  subst hev
                  simp [leafEventId] at hi
                  exact hi.symm

/-- Every event of the queue loop belongs to the dispatch of some
non-excluded forest node. -/
theorem runLoop_events (env : RunEnv) (exclude : List TItem) (roots : List TItem) :
    ∀ (q : List TItem) (step : Nat), (∀ t ∈ q, t ∈ forestNodes roots) →
      ∀ ev ∈ runLoop env exclude q step,
        ∃ t, t ∈ forestNodes roots ∧ excludedBy exclude t = false ∧
          ev ∈ dispatchLeaf env t := by
  intro q step
  induction q, step using runLoop.induct env exclude with
  | case1 step => intro _ ev hev; simp [runLoop] at hev
  | case2 t rest step hc =>
    intro _ ev hev
    unfold runLoop at hev
    rw [if_pos hc] at hev
    simp at hev
  | case3 t rest step hc hex ih =>
    intro hq ev hev
    unfold runLoop at hev
    rw [if_neg hc, if_pos hex] at hev
    exact ih (fun x hx => hq x (List.mem_cons_of_mem t hx)) ev hev
  | case4 t rest step hc hex hch ih =>
    intro hq ev hev
    unfold runLoop at hev
    rw [if_neg hc, if_neg (by simpa using hex), if_pos hch] at hev
    refine ih ?_ ev hev
    intro x hx
    rcases List.mem_append.mp hx with hx | hx
    · exact hq x (List.mem_cons_of_mem t hx)
    · exact children_mem_forestNodes roots t (hq t (List.mem_cons_self t rest)) x hx
  | case5 t rest step hc hex hch ih =>
    intro hq ev hev
    unfold runLoop at hev
    rw [if_neg hc, if_neg (by simpa using hex), if_neg hch] at hev
    rcases List.mem_append.mp hev with hev | hev
    · exact ⟨t, hq t (List.mem_cons_self t rest), by simpa using hex, hev⟩
    · exact ih (fun x hx => hq x (List.mem_cons_of_mem t hx)) ev hev

/-! ## Claim C1 -/

/-- C1: when the exclude set of a run request contains a node `e` (in
particular a container), the queue loop emits no `TestRun` status event —
started, passed, failed or skipped — for any strict descendant `l` of `e`,
whatever the initial queue is: `include` may contain `e` itself or any of
its descendants.  Excluded subtrees are dropped when dequeued, so their
leaves are never dispatched.  Item ids are assumed unique, as the VS Code
test controller guarantees. -/
theorem runHandler_excluded_container_not_executed (env : RunEnv)
    (roots queueInit exclude : List TItem) (e l : TItem)
    (hnd : ((forestNodes roots).map TItem.id).Nodup)
    (hq : ∀ t ∈ queueInit, t ∈ forestNodes roots)
    (he : e ∈ exclude) (heF : e ∈ forestNodes roots)
    (hl : l ∈ nodeDesc e) :
    ∀ ev ∈ runLoop env exclude queueInit 0, leafEventId ev ≠ some l.id := by
  intro ev hev hcontra
  obtain ⟨t, htF, htex, htev⟩ := runLoop_events env exclude roots queueInit 0 hq ev hev
  have hid : l.id = t.id := dispatchLeaf_eventId env t ev htev l.id hcontra
  have hlF : l ∈ forestNodes roots := forest_desc_closed roots e heF l hl
  have heq : t = l := List.inj_on_of_nodup_map hnd htF hlF hid.symm
  subst heq
  have hanc : isAncestorOf e t = true := by
    unfold isAncestorOf
    rw [List.any_eq_true]
    exact ⟨t, hl, by simp⟩
  have : excludedBy exclude t = true := by
    unfold excludedBy
    rw [List.any_eq_true]
    exact ⟨e, he, by simp [hanc]⟩
  rw [htex] at this
  exact Bool.false_ne_true this

/-- C1 witness: container `c` with leaf child `d` is excluded while both
`c` and `d` are in the include set; no status event mentions `d`. -/
theorem runHandler_excluded_container_not_executed_witness :
    (runLoop
      ⟨⟨fun _ => ["P.csproj"]⟩, fun _ _ => .ok ⟨0, "", "", 1⟩, fun _ => false⟩
      [TItem.mk "c" "C" none [TItem.mk "d" "D" (some ([], "f.cs")) []]]
      [TItem.mk "c" "C" none [TItem.mk "d" "D" (some ([], "f.cs")) []],
        TItem.mk "d" "D" (some ([], "f.cs")) []]
      0).all (fun ev => leafEventId ev != some "d") = true := by
  rw [List.all_eq_true]
  intro ev hev
  have hq : ∀ t ∈ [TItem.mk "c" "C" none [TItem.mk "d" "D" (some ([], "f.cs")) []],
      TItem.mk "d" "D" (some ([], "f.cs")) []],
      t ∈ forestNodes [TItem.mk "c" "C" none [TItem.mk "d" "D" (some ([], "f.cs")) []],
        TItem.mk "x" "X" (some ([], "g.cs")) []] := by
    intro t ht
    rcases List.mem_cons.mp ht with rfl | ht
    · simp [forestNodes, nodeDesc]
    · rcases List.mem_cons.mp ht with rfl | ht
      · simp [forestNodes, nodeDesc]
      · simp at ht
  have h := runHandler_excluded_container_not_executed
    ⟨⟨fun _ => ["P.csproj"]⟩, fun _ _ => .ok ⟨0, "", "", 1⟩, fun _ => false⟩
    [TItem.mk "c" "C" none [TItem.mk "d" "D" (some ([], "f.cs")) []],
      TItem.mk "x" "X" (some ([], "g.cs")) []]
    [TItem.mk "c" "C" none [TItem.mk "d" "D" (some ([], "f.cs")) []],
      TItem.mk "d" "D" (some ([], "f.cs")) []]
    [TItem.mk "c" "C" none [TItem.mk "d" "D" (some ([], "f.cs")) []]]
    (TItem.mk "c" "C" none [TItem.mk "d" "D" (some ([], "f.cs")) []])
    (TItem.mk "d" "D" (some ([], "f.cs")) [])
    (by simp [forestNodes, nodeDesc, TItem.id])
    hq (by simp) (by simp [forestNodes, nodeDesc]) (by simp [nodeDesc, forestNodes])
    ev hev
  simpa [bne_iff_ne, TItem.id] using h

/-! ## Claim C5 -/

/-- C5: a leaf whose enclosing project descriptor cannot be resolved is
marked skipped without spawning an external process, a human-readable note
is appended to the run output, and the loop then continues with the
remaining queue — the events of the failing leaf are exactly
`started`, `skipped`, the note, followed by the events of the rest of the
queue. -/
theorem runHandler_skips_unresolvable_leaf (env : RunEnv) (exclude : List TItem)
    (t : TItem) (rest : List TItem) (step : Nat)
    (hcancel : env.cancelledAt step = false)
    (hleaf : t.children = [])
    (hexc : excludedBy exclude t = false)
    (hproj : resolveProject env t = none) :
    runLoop env exclude (t :: rest) step =
      REvent.started t.id :: REvent.skipped t.id ::
      REvent.output ("Could not find project for test: " ++ t.id ++ "\n") ::
      runLoop env exclude rest (step + 1) ∧
    (∀ d f, REvent.spawn d f ∉ dispatchLeaf env t) := by
  constructor
  · conv_lhs => rw [runLoop]
    rw [if_neg (by simp [hcancel]), if_neg (by simp [hexc]), if_neg (by simp [hleaf])]
    simp [dispatchLeaf, hproj]
  · intro d f hmem
    unfold dispatchLeaf at hmem
    rw [hproj] at hmem
    simp at hmem

/-- C5 witness: a leaf whose upward `*.csproj` search finds nothing is
skipped with the note, and the sibling leaf in the queue is still
processed. -/
theorem runHandler_skips_unresolvable_leaf_witness :
    runLoop ⟨⟨fun _ => []⟩, fun _ _ => .ok ⟨0, "", "", 1⟩, fun _ => false⟩ []
      [TItem.mk "t1" "T1" (some ([], "f.cs")) [],
        TItem.mk "t2" "T2" (some ([], "g.cs")) []] 0 =
      REvent.started "t1" :: REvent.skipped "t1" ::
      REvent.output ("Could not find project for test: t1\n") ::
      runLoop ⟨⟨fun _ => []⟩, fun _ _ => .ok ⟨0, "", "", 1⟩, fun _ => false⟩ []
        [TItem.mk "t2" "T2" (some ([], "g.cs")) []] 1 ∧
    (∀ d f, REvent.spawn d f ∉
      dispatchLeaf ⟨⟨fun _ => []⟩, fun _ _ => .ok ⟨0, "", "", 1⟩, fun _ => false⟩
        (TItem.mk "t1" "T1" (some ([], "f.cs")) [])) := by
  have h := runHandler_skips_unresolvable_leaf
    ⟨⟨fun _ => []⟩, fun _ _ => .ok ⟨0, "", "", 1⟩, fun _ => false⟩ []
    (TItem.mk "t1" "T1" (some ([], "f.cs")) [])
    [TItem.mk "t2" "T2" (some ([], "g.cs")) []] 0
    rfl rfl rfl (by decide)
  exact h

/-- A non-empty queue always yields a breadth-first first leaf. -/
theorem bfsFirstLeaf_isSome (q : List TItem) (h : q ≠ []) :
    (bfsFirstLeaf q).isSome := by
  induction q using bfsFirstLeaf.induct with
  | case1 => exact absurd rfl h
  | case2 t rest hleaf =>
    unfold bfsFirstLeaf
    rw [if_pos hleaf]
    rfl
  | case3 t rest hleaf ih =>
    unfold bfsFirstLeaf
    rw [if_neg hleaf]
    refine ih ?_
    intro habs
    rcases List.append_eq_nil.mp habs with ⟨-, hch⟩
    exact hleaf (by simp [hch])

/-- The queue loop's result is the first childless item of the
breadth-first visit order. -/
theorem bfsFirstLeaf_eq_find (q : List TItem) :
    bfsFirstLeaf q = (bfsOrder q).find? fun t => decide (t.children.length = 0) := by
  induction q using bfsFirstLeaf.induct with
  | case1 => simp [bfsFirstLeaf, bfsOrder]
  | case2 t rest hleaf =>
    unfold bfsFirstLeaf bfsOrder
    rw [if_pos hleaf, if_pos hleaf]
    simp [List.find?, hleaf]
  | case3 t rest hleaf ih =>
    unfold bfsFirstLeaf bfsOrder
    rw [if_neg hleaf, if_neg hleaf]
    simp only [List.find?]
    rw [show (decide (t.children.length = 0)) = false by simpa using hleaf]
    exact ih

/-! ## Claim C9 -/

/-- C9 counterexample: for the include set `[A]` where `A` has children
`B` (a container with leaf children `D`, `E`) and `C` (a leaf), the debug
handler selects `C` — the first leaf in *breadth-first* order — while the
first leaf in depth-first order is `D`. -/
theorem debugHandler_selection_not_dfs :
    (selectTestToDebug [TItem.mk "A" "A" none
        [TItem.mk "B" "B" none [TItem.mk "D" "D" (some ([], "d.cs")) [],
            TItem.mk "E" "E" (some ([], "e.cs")) []],
          TItem.mk "C" "C" (some ([], "c.cs")) []]]).map TItem.id = some "C" ∧
    (dfsFirstLeaf (TItem.mk "A" "A" none
        [TItem.mk "B" "B" none [TItem.mk "D" "D" (some ([], "d.cs")) [],
            TItem.mk "E" "E" (some ([], "e.cs")) []],
          TItem.mk "C" "C" (some ([], "c.cs")) []])).id = "D" ∧
    ("C" : String) ≠ "D" := by
  refine ⟨?_, ?_, by decide⟩
  · simp [selectTestToDebug, bfsFirstLeaf, TItem.children, TItem.id]
  · simp [dfsFirstLeaf, TItem.id]

/-- C9 amended: for a debug request with a non-empty include set, the
handler selects exactly one item — the first included item when it is
childless, otherwise the first childless item of its subtree in
*breadth-first* (not depth-first) order — and, when its uri and project
resolve and the debugging session starts, the emitted events are exactly
`started` followed by the debug launch: no passed and no failed status is
assigned based on the session. -/
theorem debugHandler_selects_bfs_leaf (env : DebugEnv) (first : TItem)
    (restInc : List TItem) (sel : TItem) (file : List String × String) (proj : ProjectInfo)
    (hsel : selectTestToDebug (first :: restInc) = some sel)
    (huri : sel.uri = some file)
    (hproj : findProjectForTest env.fs file = some proj)
    (hok : env.debugOk = true) :
    debugHandler env (first :: restInc) =
      [REvent.started sel.id,
        REvent.debugLaunch (projPathString proj) (lastIdSegment sel.id)] ∧
    (∀ i d, REvent.passed i d ∉ debugHandler env (first :: restInc)) ∧
    (∀ i m, REvent.failed i m ∉ debugHandler env (first :: restInc)) ∧
    (0 < first.children.length →
      (bfsOrder [first]).find? (fun t => decide (t.children.length = 0)) = some sel) ∧
    (first.children.length = 0 → sel = first) := by
  have hev : debugHandler env (first :: restInc) =
      [REvent.started sel.id,
        REvent.debugLaunch (projPathString proj) (lastIdSegment sel.id)] := by
    unfold debugHandler
    rw [hsel]
    simp [huri, hproj, hok]
  refine ⟨hev, ?_, ?_, ?_, ?_⟩
  · intro i d hmem
    rw [hev] at hmem
    simp at hmem
  · intro i m hmem
    rw [hev] at hmem
    simp at hmem
  · intro hch
    rw [← bfsFirstLeaf_eq_find]
    simp only [selectTestToDebug] at hsel
    rw [if_pos hch] at hsel
    cases hbfs : bfsFirstLeaf [first] with
    | some l =>
      rw [hbfs] at hsel
      simpa using hsel
    | none =>
      have := bfsFirstLeaf_isSome [first] (by simp)
      rw [hbfs] at this
      simp at this
  · intro hleaf
    simp only [selectTestToDebug] at hsel
    rw [if_neg (by omega)] at hsel
    exact (Option.some.injEq _ _ ▸ hsel).symm

/-- C9 amended, witness: a container with a single leaf child is included;
the leaf is selected and only `started` plus the debug launch are
emitted. -/
theorem debugHandler_selects_bfs_leaf_witness :
    debugHandler ⟨⟨fun _ => ["P.csproj"]⟩, true⟩
        [TItem.mk "f" "F" none [TItem.mk "f::M" "M" (some ([], "x.cs")) []]] =
      [REvent.started "f::M",
        REvent.debugLaunch (projPathString ⟨[], "P.csproj"⟩) (lastIdSegment "f::M")] := by
  have h := debugHandler_selects_bfs_leaf ⟨⟨fun _ => ["P.csproj"]⟩, true⟩
    (TItem.mk "f" "F" none [TItem.mk "f::M" "M" (some ([], "x.cs")) []]) []
    (TItem.mk "f::M" "M" (some ([], "x.cs")) []) ([], "x.cs") ⟨[], "P.csproj"⟩
    (by simp [selectTestToDebug, bfsFirstLeaf, TItem.children]) rfl rfl rfl
  exact h.1

/-- C6: for every burst of `K ≥ 1` qualifying watcher events on the
trigger channel — consecutive events in arrival order separated by
strictly less than the debounce delay — exactly one trigger fires, and it
fires exactly one full delay after the last event of the burst: each new
event cancels the still-pending timer and restarts it. -/
theorem debounce_burst_single_fire (delay : Nat) (e : FsEventKind × Nat)
    (es : List (FsEventKind × Nat))
    (hburst : List.Chain (fun a b => a.2 ≤ b.2 ∧ b.2 < a.2 + delay) e es) :
    triggerFireTimes delay (e :: es) = [((e :: es).getLast (by simp)).2 + delay] := by
  unfold triggerFireTimes
  show fireTimesAux delay (some (e.2 + delay)) es = _
  induction es generalizing e with
  | nil => simp [fireTimesAux, List.getLast]
  | cons f fs ih =>
    rcases List.chain_cons.mp hburst with ⟨⟨-, hgap⟩, hchain⟩
    show (match some (e.2 + delay) with
      | some ft =>
        if ft ≤ f.2 then ft :: fireTimesAux delay (some (f.2 + delay)) fs
        else fireTimesAux delay (some (f.2 + delay)) fs
      | none => fireTimesAux delay (some (f.2 + delay)) fs) = _
    rw [show (match some (e.2 + delay) with
      | some ft =>
        if ft ≤ f.2 then ft :: fireTimesAux delay (some (f.2 + delay)) fs
        else fireTimesAux delay (some (f.2 + delay)) fs
      | none => fireTimesAux delay (some (f.2 + delay)) fs) =
        if e.2 + delay ≤ f.2 then (e.2 + delay) :: fireTimesAux delay (some (f.2 + delay)) fs
        else fireTimesAux delay (some (f.2 + delay)) fs from rfl]
    rw [if_neg (by omega)]
    rw [ih f hchain]
    congr 1

/-- C6 witness: three events (create, change, delete) at times 0, 500,
1200 with a 1000ms delay form one burst; exactly one trigger fires, at
2200. -/
theorem debounce_burst_single_fire_witness :
    triggerFireTimes 1000
      [(FsEventKind.created, 0), (FsEventKind.changed, 500), (FsEventKind.deleted, 1200)] =
      [2200] := by
  have h := debounce_burst_single_fire 1000 (FsEventKind.created, 0)
    [(FsEventKind.changed, 500), (FsEventKind.deleted, 1200)]
    (by simp [List.chain_cons])
  simpa using h

/-- Every node belongs to its own subtree's node collection. -/
theorem mem_collectNode_self (n : WNode) : n ∈ collectNode n := by
  cases n with
  | folderN name ch h => simp [collectNode]
  | fileN name h tests => simp [collectNode]

/-- Roots belong to their forest's node collection. -/
theorem mem_collectForest_of_mem (ns : List WNode) : ∀ c ∈ ns, c ∈ collectForest ns := by
  induction ns with
  | nil => intro c hc; simp at hc
  | cons a as ih =>
    intro c hc
    rcases List.mem_cons.mp hc with rfl | hc
    · simp only [collectForest, List.mem_append]
      exact Or.inl (mem_collectNode_self c)
    · simp only [collectForest, List.mem_append]
      exact Or.inr (ih c hc)

/-- Pointwise equal predicates give the same `any` over a forest. -/
theorem any_eq_anyDescendantLeaf (ns : List WNode)
    (h : ∀ c ∈ ns, nodeHasTests c = hasDescendantLeaf c) :
    ns.any nodeHasTests = anyDescendantLeaf ns := by
  induction ns with
  | nil => simp [anyDescendantLeaf]
  | cons a as ih =>
    simp only [List.any_cons, anyDescendantLeaf]
    rw [h a (List.mem_cons_self a as), ih fun c hc => h c (List.mem_cons_of_mem a hc)]

mutual
/-- In a scanned entry's tree, every stored `hasTests` flag agrees with
the existence of a descendant leaf. -/
theorem scanEntry_hasTests_sound : ∀ (e : FsEntry),
    ∀ n ∈ collectNode (scanEntry e), nodeHasTests n = hasDescendantLeaf n
  | .file name content => by
    intro n hn
    simp only [scanEntry, collectNode, List.mem_singleton] at hn
    subst hn
    simp [nodeHasTests, hasDescendantLeaf]
  | .dir name es => by
    intro n hn
    simp only [scanEntry, collectNode, List.mem_cons, List.mem_append] at hn
    rcases hn with rfl | hn
    · have hpt : ∀ c ∈ scanList es, nodeHasTests c = hasDescendantLeaf c := by
        intro c hc
        exact scanList_hasTests_sound es c (mem_collectForest_of_mem (scanList es) c hc)
      simp only [nodeHasTests, hasDescendantLeaf]
      exact any_eq_anyDescendantLeaf (scanList es) hpt
    · exact scanList_hasTests_sound es n hn
/-- In a scanned forest, every stored `hasTests` flag agrees with the
existence of a descendant leaf. -/
theorem scanList_hasTests_sound : ∀ (es : FsEntryList),
    ∀ n ∈ collectForest (scanList es), nodeHasTests n = hasDescendantLeaf n
  | .nil => by
    intro n hn
    simp [scanList, collectForest] at hn
  | .cons e es => by
    intro n hn
    simp only [scanList, collectForest, List.mem_append] at hn
    rcases hn with hn | hn
    · exact scanEntry_hasTests_sound e n hn
    · exact scanList_hasTests_sound es n hn
end

/-! ## Claim C7 -/

/-- C7 counterexample: scanning a folder that contains only a test-less
`A.cs` retains both the empty `FileNode` and the enclosing `FolderNode`
as stubs with `hasTests = false` — containers with zero retained
descendant leaves are *not* removed from their parent's children by the
workspace scanner. -/
theorem scanFolder_retains_empty_containers :
    scanList (FsEntryList.cons (FsEntry.dir "Sub"
        (FsEntryList.cons (FsEntry.file "A.cs" "") FsEntryList.nil)) FsEntryList.nil) =
      [WNode.folderN "Sub" [WNode.fileN "A.cs" false []] false] ∧
    ((collectForest (scanList (FsEntryList.cons (FsEntry.dir "Sub"
        (FsEntryList.cons (FsEntry.file "A.cs" "") FsEntryList.nil)) FsEntryList.nil))).any
      fun n => !hasDescendantLeaf n) = true := by
  exact ⟨rfl, rfl⟩

/-- C7 amended: after a workspace scan, the stored `hasTests` flag of
every node of the resulting tree — including the synthetic `Workspace`
root — is `true` exactly when the node has at least one descendant leaf;
however, containers without descendant leaves are retained with
`hasTests = false` rather than pruned. -/
theorem scan_hasTests_iff_descendant_leaf (es : FsEntryList) (ws : List FsEntryList) :
    (∀ n ∈ collectForest (scanList es), nodeHasTests n = hasDescendantLeaf n) ∧
    nodeHasTests (scanWorkspace ws) = hasDescendantLeaf (scanWorkspace ws) := by
  refine ⟨scanList_hasTests_sound es, ?_⟩
  simp only [scanWorkspace, nodeHasTests, hasDescendantLeaf]
  refine any_eq_anyDescendantLeaf _ ?_
  intro c hc
  rw [List.mem_flatten] at hc
  obtain ⟨l, hl, hcl⟩ := hc
  rw [List.mem_map] at hl
  obtain ⟨fs, -, rfl⟩ := hl
  exact scanList_hasTests_sound fs c (mem_collectForest_of_mem (scanList fs) c hcl)

/-- C7 amended, witness: a workspace with one test file and one empty
file; the flags of the scanned nodes agree with descendant-leaf
existence. -/
theorem scan_hasTests_iff_descendant_leaf_witness :
    nodeHasTests (WNode.fileN "FooTests.cs" true ["A"]) =
      hasDescendantLeaf (WNode.fileN "FooTests.cs" true ["A"]) ∧
    nodeHasTests (scanWorkspace [FsEntryList.cons
        (FsEntry.file "FooTests.cs" "using Xunit;\n[Fact]\npublic void A() \x7b\x7d")
        FsEntryList.nil]) =
      hasDescendantLeaf (scanWorkspace [FsEntryList.cons
        (FsEntry.file "FooTests.cs" "using Xunit;\n[Fact]\npublic void A() \x7b\x7d")
        FsEntryList.nil]) := by
  have h := scan_hasTests_iff_descendant_leaf
    (FsEntryList.cons
      (FsEntry.file "FooTests.cs" "using Xunit;\n[Fact]\npublic void A() \x7b\x7d")
      FsEntryList.nil)
    [FsEntryList.cons
      (FsEntry.file "FooTests.cs" "using Xunit;\n[Fact]\npublic void A() \x7b\x7d")
      FsEntryList.nil]
  refine ⟨h.1 (WNode.fileN "FooTests.cs" true ["A"]) ?_, h.2⟩
  show WNode.fileN "FooTests.cs" true ["A"] ∈
    collectForest (scanList (FsEntryList.cons
      (FsEntry.file "FooTests.cs" "using Xunit;\n[Fact]\npublic void A() \x7b\x7d")
      FsEntryList.nil))
  rw [show collectForest (scanList (FsEntryList.cons
      (FsEntry.file "FooTests.cs" "using Xunit;\n[Fact]\npublic void A() \x7b\x7d")
      FsEntryList.nil)) = [WNode.fileN "FooTests.cs" true ["A"]] from rfl]
  simp

/-- A successful `beginsWith` decomposes the list. -/
theorem beginsWith_ex {l n : List Char} (h : beginsWith l n = true) :
    ∃ r, l = n ++ r := by
  induction n generalizing l with
  | nil => exact ⟨l, rfl⟩
  | cons d ds ih =>
    cases l with
    | nil => simp [beginsWith] at h
    | cons c cs =>
      simp only [beginsWith, Bool.and_eq_true, beq_iff_eq] at h
      obtain ⟨rfl, h2⟩ := h
      obtain ⟨r, rfl⟩ := ih h2
      exact ⟨r, rfl⟩

/-- A word begins with itself. -/
theorem beginsWith_append_self (n r : List Char) : beginsWith (n ++ r) n = true := by
  induction n with
  | nil => simp [beginsWith]
  | cons d ds ih => simp [beginsWith, ih]

/-- A list contains any word it begins with. -/
theorem containsSub_of_beginsWith {l n : List Char} (h : beginsWith l n = true) :
    containsSub l n = true := by
  cases l with
  | nil => simpa [containsSub] using h
  | cons c cs => simp [containsSub, h]

/-- Containment is preserved by prepending. -/
theorem containsSub_append_left (x : List Char) {y n : List Char}
    (h : containsSub y n = true) : containsSub (x ++ y) n = true := by
  induction x with
  | nil => simpa using h
  | cons c cs ih => simp [containsSub, ih]

/-- A name that ends in `n ++ r` contains `n`. -/
theorem containsSub_of_endsWith {hay n r : List Char}
    (h : endsWithList hay (n ++ r) = true) : containsSub hay n = true := by
  unfold endsWithList at h
  simp only [Bool.and_eq_true, decide_eq_true_eq] at h
  obtain ⟨-, h2⟩ := h
  obtain ⟨rest, hdrop⟩ := beginsWith_ex h2
  have hhay : hay = hay.take (hay.length - (n ++ r).length) ++ (n ++ (r ++ rest)) := by
    conv_lhs => rw [← List.take_append_drop (hay.length - (n ++ r).length) hay]
    rw [hdrop]
    simp
  rw [hhay]
  exact containsSub_append_left _
    (containsSub_of_beginsWith (beginsWith_append_self n (r ++ rest)))

/-! ## Claim C10 -/

/-- C10 counterexample: the two predicates disagree in both directions.
`"Test.txt"` contains `Test` so the file-create predicate accepts it, but
it does not end in a test suffix before `.cs`; `"footest.cs"` matches the
case-insensitive suffix regex but contains none of the case-sensitive
substrings `Test`/`Tests`/`Spec`. -/
theorem testFilePredicates_disagree :
    checkAndAddTestFilePred "Test.txt" = true ∧ isLikelyTestFile "Test.txt" = false ∧
    checkAndAddTestFilePred "footest.cs" = false ∧ isLikelyTestFile "footest.cs" = true := by
  exact ⟨by decide, by decide, by decide, by decide⟩

/-- C10 amended: the create-event predicate is *not* equivalent to the
scan predicates; what does hold is an inclusion — every name accepted by
the case-sensitive glob suffix of the full workspace scan
(`*{Test,Tests,TestCase,Spec}.cs`) contains one of the substrings
`Test`/`Spec` and is therefore also accepted by the create-event
predicate.  The converse fails, as does agreement with the
case-insensitive `isLikelyTestFile`. -/
theorem checkAndAdd_covers_glob_suffix (fileName : String)
    (h : globSuffixTestPred fileName = true) : checkAndAddTestFilePred fileName = true := by
  unfold globSuffixTestPred at h
  simp only [Bool.or_eq_true] at h
  unfold checkAndAddTestFilePred
  simp only [Bool.or_eq_true]
  rcases h with ((h | h) | h) | h
  · exact Or.inl (Or.inl (containsSub_of_endsWith
      (show endsWithList fileName.data ("Test".data ++ ".cs".data) = true from h)))
  · exact Or.inl (Or.inl (containsSub_of_endsWith
      (show endsWithList fileName.data ("Test".data ++ "s.cs".data) = true from h)))
  · exact Or.inl (Or.inl (containsSub_of_endsWith
      (show endsWithList fileName.data ("Test".data ++ "Case.cs".data) = true from h)))
  · exact Or.inr (containsSub_of_endsWith
      (show endsWithList fileName.data ("Spec".data ++ ".cs".data) = true from h))

/-- C10 amended, witness: `FooTests.cs` is matched by the glob suffix and
accepted by the create-event predicate. -/
theorem checkAndAdd_covers_glob_suffix_witness :
    globSuffixTestPred "FooTests.cs" = true ∧
    checkAndAddTestFilePred "FooTests.cs" = true :=
  ⟨by decide, checkAndAdd_covers_glob_suffix "FooTests.cs" (by decide)⟩

end Testy
